import Mathlib

/-!
# Verification of the skills installer

Shallow embedding of the two installer entry points of the repository:
`bin/install.js` (local-payload variant, Node.js) and `install.sh`
(remote-fetch variant, bash).  The filesystem is modelled as a tree of
named entries; paths are lists of components, so `path.join` on defined
string inputs is list append, and environment variables holding paths
are carried as component lists (the empty list playing the role of the
empty string for JavaScript truthiness).  Copies are modelled per skill
as one atomic tree merge; the partial states inside a single failed
copy are not distinguished.
-/

set_option autoImplicit false

namespace Installer

/-- A filesystem node: a regular file with contents, or a directory with a
list of named children (in directory order, as `readdir` would return). -/
inductive FsNode where
  | file (content : String)
  | dir (entries : List (String × FsNode))
deriving Repr

/-- First entry with the given name, if any. -/
def lookupEntry : List (String × FsNode) → String → Option FsNode
  | [], _ => none
  | (m, w) :: es, n => if m = n then some w else lookupEntry es n

/-- Replace the first entry with the given name, or append a new one. -/
def setEntry : List (String × FsNode) → String → FsNode → List (String × FsNode)
  | [], n, v => [(n, v)]
  | (m, w) :: es, n, v => if m = n then (m, v) :: es else (m, w) :: setEntry es n v

/-- Drop every entry with the given name (a real directory holds at
most one; no-op when absent). -/
def removeEntry : List (String × FsNode) → String → List (String × FsNode)
  | [], _ => []
  | (m, w) :: es, n => if m = n then removeEntry es n else (m, w) :: removeEntry es n

/-- Resolve a path from this node. -/
def FsNode.lookup : FsNode → List String → Option FsNode
  | n, [] => some n
  | .file _, _ :: _ => none
  | .dir es, c :: p =>
      match lookupEntry es c with
      | some ch => ch.lookup p
      | none => none

/-- Write a node at a path whose parent already exists as a directory
(the final entry is created or replaced); `none` when the parent chain
is missing or blocked by a file. -/
def FsNode.setAt : FsNode → List String → FsNode → Option FsNode
  | _, [], v => some v
  | .file _, _ :: _, _ => none
  | .dir es, c :: p, v =>
      match lookupEntry es c with
      | some ch => (ch.setAt p v).map fun ch2 => FsNode.dir (setEntry es c ch2)
      | none =>
          match p with
          | [] => some (.dir (setEntry es c v))
          | _ :: _ => none

/-- `mkdir -p` / `fs.mkdirSync(..., recursive)`: create every missing
directory along the path; `none` when a file blocks the path. -/
def FsNode.mkdirp : FsNode → List String → Option FsNode
  | .file _, [] => none
  | .dir es, [] => some (.dir es)
  | .file _, _ :: _ => none
  | .dir es, c :: p =>
      match lookupEntry es c with
      | some ch => (ch.mkdirp p).map fun ch2 => FsNode.dir (setEntry es c ch2)
      | none => ((FsNode.dir []).mkdirp p).map fun ch2 => FsNode.dir (setEntry es c ch2)

/-- `rm -rf` at a path: remove the named subtree, a no-op when absent. -/
def FsNode.removeAt : FsNode → List String → FsNode
  | n, [] => n
  | .file c, _ :: _ => .file c
  | .dir es, [c] => .dir (removeEntry es c)
  | .dir es, c :: d :: p =>
      match lookupEntry es c with
      | some ch => .dir (setEntry es c (ch.removeAt (d :: p)))
      | none => .dir es

mutual
/-- Recursive-copy semantics shared by `fs.cpSync(src, dest, recursive)`
and `cp -r` copying into an existing tree: files overwrite files,
directories merge entry-wise into directories (entries present only at
the destination survive), and a directory/file kind clash is an error
(`none`).  This is merge, not replace. -/
def cpMerge : FsNode → Option FsNode → Option FsNode
  | .file c, none => some (.file c)
  | .file c, some (.file _) => some (.file c)
  | .file _, some (.dir _) => none
  | .dir es, none => (cpMergeList es []).map FsNode.dir
  | .dir es, some (.dir ds) => (cpMergeList es ds).map FsNode.dir
  | .dir _, some (.file _) => none

/-- Merge each source entry, left to right, into a destination entry list. -/
def cpMergeList : List (String × FsNode) → List (String × FsNode) →
    Option (List (String × FsNode))
  | [], ds => some ds
  | (n, s) :: es, ds =>
      match cpMerge s (lookupEntry ds n) with
      | none => none
      | some m => cpMergeList es (setEntry ds n m)
end

/-- The name does not occur among the entries. -/
def nameFresh (n : String) : List (String × FsNode) → Bool
  | [] => true
  | (m, _) :: es => decide (n ≠ m) && nameFresh n es

mutual
/-- Well-formedness of a tree: within each directory, entry names are
distinct (as a real filesystem guarantees). -/
def FsNode.wf : FsNode → Bool
  | .file _ => true
  | .dir es => wfList es

/-- Entry-list well-formedness: head name absent from the tail, head
subtree well-formed, tail well-formed. -/
def wfList : List (String × FsNode) → Bool
  | [] => true
  | (n, v) :: es => nameFresh n es && v.wf && wfList es
end

/-- Is this node a directory (`Dirent.isDirectory()`). -/
def FsNode.isDirNode : FsNode → Bool
  | .dir _ => true
  | .file _ => false

/-- Names of the directory-kind entries, in directory order
(`readdirSync(..., withFileTypes).filter(isDirectory).map(name)`). -/
def subdirNames : List (String × FsNode) → List String
  | [] => []
  | (n, v) :: es => if v.isDirNode then n :: subdirNames es else subdirNames es

/-- Render a component path the way the installers print it. -/
def showPath (p : List String) : String := String.intercalate "/" p

/-- Observable result of one installer process run: final filesystem,
exit status, and the two output streams as lists of lines. -/
structure Outcome where
  fs : FsNode
  exitCode : Nat
  stdout : List String
  stderr : List String
deriving Repr

/-! ## The local-payload variant, `bin/install.js` -/

/-- Inputs to `bin/install.js`: CLI arguments (after the script name),
the HOME and USERPROFILE environment variables (`none` = unset, values
as path components), the working directory, and the directory holding
the script (`__dirname`). -/
structure JsEnv where
  argv : List String
  envHome : Option (List String)
  envUserProfile : Option (List String)
  cwd : List String
  scriptDir : List String

/-- `args.includes("--global")`. -/
def jsIsGlobal (e : JsEnv) : Bool := e.argv.contains "--global"

/-- `process.env.HOME || process.env.USERPROFILE` — the empty value is
falsy in JavaScript, so it falls through to USERPROFILE. -/
def jsHome (e : JsEnv) : Option (List String) :=
  match e.envHome with
  | some h => if h = [] then e.envUserProfile else some h
  | none => e.envUserProfile

/-- The destination root `targetBase`; `none` models the TypeError
thrown by `path.join(undefined, ...)` when --global is given and no
home variable is set. -/
def jsTargetBase (e : JsEnv) : Option (List String) :=
  if jsIsGlobal e then (jsHome e).map (· ++ [".claude", "skills"])
  else some (e.cwd ++ [".claude", "skills"])

/-- `path.resolve(__dirname, "..", "skills")`. -/
def jsSkillsSource (e : JsEnv) : List String := e.scriptDir.dropLast ++ ["skills"]

/-- The enumerated skill directory names, when the payload source
resolves to a directory. -/
def jsSkillDirs (e : JsEnv) (fs0 : FsNode) : Option (List String) :=
  match fs0.lookup (jsSkillsSource e) with
  | some (.dir es) => some (subdirNames es)
  | _ => none

/-- The copy loop of `bin/install.js`: for each skill in order,
`fs.cpSync(src/skill, targetBase/skill, recursive)`, then one progress
line; the first failing copy aborts the run (uncaught exception), with
the lines printed so far. -/
def jsCopyLoop (src tb : List String) :
    FsNode → List String → Except (FsNode × List String) (FsNode × List String)
  | fs, [] => .ok (fs, [])
  | fs, skill :: rest =>
      match fs.lookup (src ++ [skill]) with
      | none => .error (fs, [])
      | some sNode =>
          match cpMerge sNode (fs.lookup (tb ++ [skill])) with
          | none => .error (fs, [])
          | some merged =>
              match fs.setAt (tb ++ [skill]) merged with
              | none => .error (fs, [])
              | some fs2 =>
                  match jsCopyLoop src tb fs2 rest with
                  | .ok (fs3, lines) => .ok (fs3, ("  ✓ " ++ skill) :: lines)
                  | .error (fs3, lines) => .error (fs3, ("  ✓ " ++ skill) :: lines)

/-- `bin/install.js` end to end, in source order: resolve `targetBase`
(possibly throwing), check the payload source exists, enumerate skill
directories, fail on an empty payload, `mkdirSync` the destination
root, print the banner, copy each skill with a progress line, print the
summary.  An `mkdirSync` failure is modelled as leaving the tree
unchanged (partial intermediate-directory creation is not
distinguished). -/
def jsInstall (e : JsEnv) (fs0 : FsNode) : Outcome :=
  match jsTargetBase e with
  | none =>
      { fs := fs0, exitCode := 1, stdout := [],
        stderr := ["TypeError: the path argument must be of type string"] }
  | some tb =>
      let src := jsSkillsSource e
      match fs0.lookup src with
      | none =>
          { fs := fs0, exitCode := 1, stdout := [],
            stderr := ["Error: skills/ directory not found at " ++ showPath src] }
      | some (.file _) =>
          { fs := fs0, exitCode := 1, stdout := [], stderr := ["ENOTDIR: readdirSync"] }
      | some (.dir es) =>
          let skillDirs := subdirNames es
          if skillDirs = [] then
            { fs := fs0, exitCode := 1, stdout := [],
              stderr := ["Error: No skill directories found in " ++ showPath src] }
          else
            match fs0.mkdirp tb with
            | none =>
                { fs := fs0, exitCode := 1, stdout := [], stderr := ["mkdirSync failed"] }
            | some fs1 =>
                let banner :=
                  ["",
                   (if jsIsGlobal e then "Installing Next.js Claude skills globally..."
                    else "Installing Next.js Claude skills to project..."),
                   "Target: " ++ showPath tb, ""]
                match jsCopyLoop src tb fs1 skillDirs with
                | .error (fs2, lines) =>
                    { fs := fs2, exitCode := 1, stdout := banner ++ lines,
                      stderr := ["cpSync failed"] }
                | .ok (fs2, lines) =>
                    { fs := fs2, exitCode := 0,
                      stdout := banner ++ lines ++
                        ["", "Done! " ++ toString skillDirs.length ++ " skills installed.",
                         "",
                         "Skills are auto-activated by Claude Code based on your prompts.",
                         "No additional configuration needed.", ""],
                      stderr := [] }

/-! ## The remote-fetch variant, `install.sh` -/

/-- Inputs to `install.sh`: CLI arguments, the HOME variable (fatal
under `set -u` when expanded unset), the working directory, the fresh
path `mktemp -d` chooses, and the tree a successful `git clone` of the
fixed repository URL would produce (`none` = the fetch fails). -/
structure BashEnv where
  argv : List String
  envHome : Option (List String)
  cwd : List String
  tmpPath : List String
  cloneResult : Option FsNode

/-- The `case "$arg" in --global)` loop. -/
def bashIsGlobal (e : BashEnv) : Bool := e.argv.contains "--global"

/-- `TARGET`; `none` models the `set -u` fatal "HOME: unbound variable"
when --global is given with HOME unset. -/
def bashTarget (e : BashEnv) : Option (List String) :=
  if bashIsGlobal e then e.envHome.map (· ++ [".claude", "skills"])
  else some (e.cwd ++ [".claude", "skills"])

/-- Insert into a ≤-sorted list of names. -/
def insertSorted (n : String) : List String → List String
  | [] => [n]
  | m :: ms => if n ≤ m then n :: m :: ms else m :: insertSorted n ms

/-- Shell glob results come back sorted by name. -/
def sortNames : List String → List String
  | [] => []
  | n :: ns => insertSorted n (sortNames ns)

/-- Does a name begin with a dot?  Bash globs with default options (no
`dotglob`) never match such names. -/
def dotName (n : String) : Bool :=
  match n.data with
  | [] => false
  | c :: _ => c == '.'

/-- Names the glob `*/` can match: directory-kind entries whose name
does not begin with a dot — bash with default options (no `dotglob`)
never matches dot names, unlike Node's `readdirSync`. -/
def globDirNames : List (String × FsNode) → List String
  | [] => []
  | (n, v) :: es =>
      if v.isDirNode && !(dotName n) then n :: globDirNames es
      else globDirNames es

/-- The glob `"$TMPDIR/repo/skills"/*/`: the sorted matchable
(non-dot-named) subdirectory names when at least one matches; otherwise
the word is left unexpanded, so the loop sees the literal `*`. -/
def bashGlob (fs : FsNode) (skillsPath : List String) : List String :=
  match fs.lookup skillsPath with
  | some (.dir es) =>
      match sortNames (globDirNames es) with
      | [] => ["*"]
      | x :: xs => x :: xs
  | _ => ["*"]

/-- `cp -r "$skill_dir" "$TARGET/$skill_name"` with GNU semantics: a
nonexistent destination path becomes a copy of the source directory;
an existing destination directory receives the source directory copied
INTO it as a child bearing the source's base name (which is what nests
a second copy on re-install).  A kind clash is a failure. -/
def bashCpR (fs : FsNode) (srcPath destPath : List String) (base : String) :
    Option FsNode :=
  match fs.lookup srcPath with
  | none => none
  | some (.file _) => none
  | some (.dir es) =>
      match fs.lookup destPath with
      | none => (cpMerge (.dir es) none).bind fun c => fs.setAt destPath c
      | some (.file _) => none
      | some (.dir _) =>
          (cpMerge (.dir es) (fs.lookup (destPath ++ [base]))).bind fun c =>
            fs.setAt (destPath ++ [base]) c

/-- The `for skill_dir in .../*/` loop of `install.sh`: copy, then one
progress line; under `set -e` the first failing `cp` aborts the run. -/
def bashCopyLoop (src tb : List String) :
    FsNode → List String → Except (FsNode × List String) (FsNode × List String)
  | fs, [] => .ok (fs, [])
  | fs, name :: rest =>
      match bashCpR fs (src ++ [name]) (tb ++ [name]) name with
      | none => .error (fs, [])
      | some fs2 =>
          match bashCopyLoop src tb fs2 rest with
          | .ok (fs3, lines) => .ok (fs3, ("  + " ++ name) :: lines)
          | .error (fs3, lines) => .error (fs3, ("  + " ++ name) :: lines)

/-- The body of `install.sh` after the EXIT trap is installed: clone
into `$TMPDIR/repo`, `mkdir -p "$TARGET"`, banner, copy loop, summary;
`set -e` aborts at the first failure. -/
def bashMain (e : BashEnv) (tb : List String) (fs : FsNode) : Outcome :=
  let out0 := ["", "Cloning Next.js Claude skills..."]
  match e.cloneResult with
  | none =>
      { fs := fs, exitCode := 128, stdout := out0, stderr := ["fatal: clone failed"] }
  | some repoTree =>
      match fs.setAt (e.tmpPath ++ ["repo"]) repoTree with
      | none =>
          { fs := fs, exitCode := 1, stdout := out0,
            stderr := ["fatal: could not create work tree"] }
      | some fs1 =>
          match fs1.mkdirp tb with
          | none =>
              { fs := fs1, exitCode := 1, stdout := out0, stderr := ["mkdir failed"] }
          | some fs2 =>
              let out1 := out0 ++
                [(if bashIsGlobal e then "Installing globally to " ++ showPath tb
                  else "Installing to project at " ++ showPath tb), ""]
              let names := bashGlob fs2 (e.tmpPath ++ ["repo", "skills"])
              match bashCopyLoop (e.tmpPath ++ ["repo", "skills"]) tb fs2 names with
              | .error (fs3, lines) =>
                  { fs := fs3, exitCode := 1, stdout := out1 ++ lines,
                    stderr := ["cp failed"] }
              | .ok (fs3, lines) =>
                  { fs := fs3, exitCode := 0,
                    stdout := out1 ++ lines ++
                      ["", "Done! " ++ toString names.length ++ " skills installed.",
                       "",
                       "Skills are auto-activated by Claude Code based on your prompts.",
                       "No additional configuration needed.", ""],
                    stderr := [] }

/-- The EXIT trap `rm -rf "$TMPDIR"`: runs on every exit path once the
trap is installed. -/
def bashFinish (tmp : List String) (o : Outcome) : Outcome :=
  { o with fs := o.fs.removeAt tmp }

/-- `install.sh` end to end: resolve `TARGET` (fatal when HOME is
expanded unset), `mktemp -d` (before the trap is installed; assumed to
fail only when its parent is unusable), then the trapped body with
unconditional temp-directory cleanup. -/
def bashInstall (e : BashEnv) (fs0 : FsNode) : Outcome :=
  match bashTarget e with
  | none =>
      { fs := fs0, exitCode := 1, stdout := [], stderr := ["HOME: unbound variable"] }
  | some tb =>
      match fs0.mkdirp e.tmpPath with
      | none =>
          { fs := fs0, exitCode := 1, stdout := [], stderr := ["mktemp failed"] }
      | some fsT => bashFinish e.tmpPath (bashMain e tb fsT)

/-- Names of all entries at a path (empty when the path is not a
directory); used to observe the destination root. -/
def dirNamesAt (fs : FsNode) (p : List String) : List String :=
  match fs.lookup p with
  | some (.dir es) => es.map Prod.fst
  | _ => []

/-! ## Entry-list lemmas -/

theorem lookupEntry_setEntry_self (es : List (String × FsNode)) (n : String) (v : FsNode) :
    lookupEntry (setEntry es n v) n = some v := by
  induction es with
  | nil => simp [setEntry, lookupEntry]
  | cons e es ih =>
      obtain ⟨m, w⟩ := e
      by_cases h : m = n <;> simp [setEntry, lookupEntry, h, ih]

theorem lookupEntry_setEntry_ne (es : List (String × FsNode)) {n m : String} (v : FsNode)
    (h : m ≠ n) : lookupEntry (setEntry es n v) m = lookupEntry es m := by
  induction es with
  | nil => simp [setEntry, lookupEntry, Ne.symm h]
  | cons e es ih =>
      obtain ⟨k, w⟩ := e
      by_cases hk : k = n
      · subst hk
        have hkm : ¬ k = m := fun hh => h hh.symm
        simp [setEntry, lookupEntry, hkm]
      · by_cases hm : k = m
        · subst hm
          simp [setEntry, lookupEntry, hk]
        · simp [setEntry, lookupEntry, hk, hm, ih]

theorem setEntry_of_lookupEntry_eq (es : List (String × FsNode)) {n : String} {v : FsNode}
    (h : lookupEntry es n = some v) : setEntry es n v = es := by
  induction es with
  | nil => simp [lookupEntry] at h
  | cons e es ih =>
      obtain ⟨m, w⟩ := e
      by_cases hm : m = n
      · subst hm
        simp [lookupEntry] at h
        simp [setEntry, h]
      · simp [lookupEntry, hm] at h
        simp [setEntry, hm, ih h]

theorem setEntry_of_lookupEntry_none (es : List (String × FsNode)) {n : String} (v : FsNode)
    (h : lookupEntry es n = none) : setEntry es n v = es ++ [(n, v)] := by
  induction es with
  | nil => simp [setEntry]
  | cons e es ih =>
      obtain ⟨m, w⟩ := e
      by_cases hm : m = n
      · simp [lookupEntry, hm] at h
      · simp [lookupEntry, hm] at h
        simp [setEntry, hm, ih h]

theorem setEntry_setEntry (es : List (String × FsNode)) (n : String) (v w : FsNode) :
    setEntry (setEntry es n v) n w = setEntry es n w := by
  induction es with
  | nil => simp [setEntry]
  | cons e es ih =>
      obtain ⟨m, u⟩ := e
      by_cases hm : m = n <;> simp [setEntry, hm, ih]

theorem removeEntry_of_lookupEntry_none (es : List (String × FsNode)) {n : String}
    (h : lookupEntry es n = none) : removeEntry es n = es := by
  induction es with
  | nil => simp [removeEntry]
  | cons e es ih =>
      obtain ⟨m, w⟩ := e
      by_cases hm : m = n
      · simp [lookupEntry, hm] at h
      · simp [lookupEntry, hm] at h
        simp [removeEntry, hm, ih h]

theorem removeEntry_append_fresh (es : List (String × FsNode)) {n : String} (v : FsNode)
    (h : lookupEntry es n = none) : removeEntry (es ++ [(n, v)]) n = es := by
  induction es with
  | nil => simp [removeEntry]
  | cons e es ih =>
      obtain ⟨m, w⟩ := e
      by_cases hm : m = n
      · simp [lookupEntry, hm] at h
      · simp [lookupEntry, hm] at h
        simp [removeEntry, hm, ih h]

theorem nameFresh_iff (n : String) (es : List (String × FsNode)) :
    nameFresh n es = true ↔ lookupEntry es n = none := by
  induction es with
  | nil => simp [nameFresh, lookupEntry]
  | cons e es ih =>
      obtain ⟨m, w⟩ := e
      by_cases hm : m = n
      · subst hm
        simp [nameFresh, lookupEntry]
      · have hnm : n ≠ m := fun hh => hm hh.symm
        simp [nameFresh, lookupEntry, hm, hnm, ih]

/-! ## Path lemmas -/

/-- Two paths heading to unrelated filesystem locations: neither is a
prefix of the other, so they diverge at a component strictly inside
both. -/
def PathDiv (a b : List String) : Prop := ¬ (a <+: b) ∧ ¬ (b <+: a)

theorem pathDiv_symm {a b : List String} (h : PathDiv a b) : PathDiv b a :=
  ⟨h.2, h.1⟩

/-- Paths with different head components diverge. -/
theorem pathDiv_of_head_ne {a b : String} {x y : List String} (h : a ≠ b) :
    PathDiv (a :: x) (b :: y) :=
  ⟨fun hp => h (List.cons_prefix_cons.mp hp).1,
   fun hp => h ((List.cons_prefix_cons.mp hp).1).symm⟩

/-- Divergent paths stay divergent under arbitrary extension. -/
theorem pathDiv_append {a b : List String} (h : PathDiv a b) (x y : List String) :
    PathDiv (a ++ x) (b ++ y) := by
  induction a generalizing b with
  | nil => exact absurd (List.nil_prefix) h.1
  | cons c a ih =>
      cases b with
      | nil => exact absurd (List.nil_prefix) h.2
      | cons d b =>
          by_cases hcd : c = d
          · subst hcd
            have hab : PathDiv a b := by
              constructor
              · exact fun hp => h.1 (List.cons_prefix_cons.mpr ⟨rfl, hp⟩)
              · exact fun hp => h.2 (List.cons_prefix_cons.mpr ⟨rfl, hp⟩)
            have := ih hab
            constructor
            · intro hp
              exact (this).1 ((List.cons_prefix_cons.mp hp).2)
            · intro hp
              exact (this).2 ((List.cons_prefix_cons.mp hp).2)
          · constructor
            · intro hp
              exact hcd (List.cons_prefix_cons.mp hp).1
            · intro hp
              exact hcd ((List.cons_prefix_cons.mp hp).1).symm

/-- Sibling paths `p ++ [x]` and `p ++ [y]` with `x ≠ y` diverge. -/
theorem pathDiv_sibling (p : List String) {x y : String} (h : x ≠ y) :
    PathDiv (p ++ [x]) (p ++ [y]) := by
  induction p with
  | nil =>
      constructor
      · intro hp
        exact h (List.cons_prefix_cons.mp hp).1
      · intro hp
        exact h ((List.cons_prefix_cons.mp hp).1).symm
  | cons c p ih =>
      constructor
      · intro hp
        exact ih.1 (List.cons_prefix_cons.mp hp).2
      · intro hp
        exact ih.2 (List.cons_prefix_cons.mp hp).2

/-- Resolving a concatenated path resolves the pieces in sequence. -/
theorem FsNode.lookup_append (n : FsNode) (p q : List String) :
    n.lookup (p ++ q) = (n.lookup p).bind (fun m => m.lookup q) := by
  induction p generalizing n with
  | nil => simp [FsNode.lookup]
  | cons c p ih =>
      cases n with
      | file s => simp [FsNode.lookup]
      | dir es =>
          simp only [List.cons_append, FsNode.lookup]
          cases lookupEntry es c with
          | none => simp
          | some ch => simpa using ih ch

/-! ## Well-formedness lemmas -/

theorem wfList_lookupEntry {es : List (String × FsNode)} {n : String} {ch : FsNode}
    (hwf : wfList es = true) (h : lookupEntry es n = some ch) : ch.wf = true := by
  induction es with
  | nil => simp [lookupEntry] at h
  | cons e es ih =>
      obtain ⟨m, w⟩ := e
      simp only [wfList, Bool.and_eq_true] at hwf
      by_cases hm : m = n
      · simp [lookupEntry, hm] at h
        exact h ▸ hwf.1.2
      · simp [lookupEntry, hm] at h
        exact ih hwf.2 h

theorem FsNode.wf_lookup {fs : FsNode} {p : List String} {n : FsNode}
    (hwf : fs.wf = true) (h : fs.lookup p = some n) : n.wf = true := by
  induction p generalizing fs with
  | nil => simp [FsNode.lookup] at h; exact h ▸ hwf
  | cons c p ih =>
      cases fs with
      | file s => simp [FsNode.lookup] at h
      | dir es =>
          simp only [FsNode.lookup] at h
          cases hch : lookupEntry es c with
          | none => simp [hch] at h
          | some ch =>
              simp only [hch] at h
              exact ih (wfList_lookupEntry (by simpa [FsNode.wf] using hwf) hch) h

theorem nameFresh_not_mem_subdirNames {n : String} {es : List (String × FsNode)}
    (h : nameFresh n es = true) : n ∉ subdirNames es := by
  induction es with
  | nil => simp [subdirNames]
  | cons e es ih =>
      obtain ⟨m, w⟩ := e
      simp only [nameFresh, Bool.and_eq_true, decide_eq_true_eq] at h
      cases hd : w.isDirNode <;> simp [subdirNames, hd, ih h.2, h.1]

theorem subdirNames_nodup {es : List (String × FsNode)} (hwf : wfList es = true) :
    (subdirNames es).Nodup := by
  induction es with
  | nil => simp [subdirNames]
  | cons e es ih =>
      obtain ⟨m, w⟩ := e
      simp only [wfList, Bool.and_eq_true] at hwf
      cases hd : w.isDirNode <;>
        simp [subdirNames, hd, ih hwf.2, nameFresh_not_mem_subdirNames hwf.1.1]

/-- A name enumerated by `subdirNames` resolves, in a well-formed entry
list, to a directory entry. -/
theorem mem_subdirNames_lookupEntry {es : List (String × FsNode)} {n : String}
    (hwf : wfList es = true) (h : n ∈ subdirNames es) :
    ∃ ds, lookupEntry es n = some (.dir ds) := by
  induction es with
  | nil => simp [subdirNames] at h
  | cons e es ih =>
      obtain ⟨m, w⟩ := e
      simp only [wfList, Bool.and_eq_true] at hwf
      cases hd : w.isDirNode with
      | true =>
          simp only [subdirNames, hd, if_true, List.mem_cons] at h
          rcases h with h | h
          · subst h
            cases w with
            | file _ => simp [FsNode.isDirNode] at hd
            | dir ds => exact ⟨ds, by simp [lookupEntry]⟩
          · have hm : m ≠ n := by
              intro hh
              subst hh
              exact (nameFresh_not_mem_subdirNames hwf.1.1) h
            obtain ⟨ds, hds⟩ := ih hwf.2 h
            exact ⟨ds, by simp [lookupEntry, hm, hds]⟩
      | false =>
          simp only [subdirNames, hd, if_false] at h
          have hm : m ≠ n := by
            intro hh
            subst hh
            exact (nameFresh_not_mem_subdirNames hwf.1.1) h
          obtain ⟨ds, hds⟩ := ih hwf.2 h
          exact ⟨ds, by simp [lookupEntry, hm, hds]⟩

/-- When no entry is a directory, `subdirNames` is empty. -/
theorem subdirNames_eq_nil {es : List (String × FsNode)}
    (h : ∀ x ∈ es, x.2.isDirNode = false) : subdirNames es = [] := by
  induction es with
  | nil => simp [subdirNames]
  | cons e es ih =>
      obtain ⟨m, w⟩ := e
      have hw : w.isDirNode = false := h (m, w) (by simp)
      simp [subdirNames, hw, ih (fun x hx => h x (by simp [hx]))]

/-! ## setAt lemmas -/

theorem lookupEntry_removeEntry_self (es : List (String × FsNode)) (n : String) :
    lookupEntry (removeEntry es n) n = none := by
  induction es with
  | nil => simp [removeEntry, lookupEntry]
  | cons e es ih =>
      obtain ⟨m, w⟩ := e
      by_cases hm : m = n <;> simp [removeEntry, lookupEntry, hm, ih]

theorem FsNode.lookup_setAt_self {fs fs2 : FsNode} {p : List String} {v : FsNode}
    (h : fs.setAt p v = some fs2) : fs2.lookup p = some v := by
  induction p generalizing fs fs2 with
  | nil =>
      simp only [FsNode.setAt, Option.some.injEq] at h
      simp [← h, FsNode.lookup]
  | cons c p ih =>
      cases fs with
      | file s => simp [FsNode.setAt] at h
      | dir es =>
          simp only [FsNode.setAt] at h
          cases hch : lookupEntry es c with
          | some ch =>
              simp only [hch, Option.map_eq_some'] at h
              obtain ⟨ch2, hch2, rfl⟩ := h
              simp [FsNode.lookup, lookupEntry_setEntry_self, ih hch2]
          | none =>
              simp only [hch] at h
              cases p with
              | nil =>
                  simp only [Option.some.injEq] at h
                  simp [← h, FsNode.lookup, lookupEntry_setEntry_self]
              | cons d p => simp at h

theorem FsNode.lookup_setAt_of_pathDiv {fs fs2 : FsNode} {p : List String} {v : FsNode}
    (h : fs.setAt p v = some fs2) {q : List String} (hd : PathDiv p q) :
    fs2.lookup q = fs.lookup q := by
  induction p generalizing fs fs2 q with
  | nil => exact absurd List.nil_prefix hd.1
  | cons c p ih =>
      cases q with
      | nil => exact absurd List.nil_prefix hd.2
      | cons d q =>
          cases fs with
          | file s => simp [FsNode.setAt] at h
          | dir es =>
              simp only [FsNode.setAt] at h
              by_cases hdc : d = c
              · subst hdc
                have hpq : PathDiv p q := by
                  constructor
                  · exact fun hp => hd.1 (List.cons_prefix_cons.mpr ⟨rfl, hp⟩)
                  · exact fun hp => hd.2 (List.cons_prefix_cons.mpr ⟨rfl, hp⟩)
                cases hch : lookupEntry es d with
                | some ch =>
                    simp only [hch, Option.map_eq_some'] at h
                    obtain ⟨ch2, hch2, rfl⟩ := h
                    simp [FsNode.lookup, lookupEntry_setEntry_self, hch, ih hch2 hpq]
                | none =>
                    simp only [hch] at h
                    cases p with
                    | nil => exact absurd List.nil_prefix hpq.1
                    | cons x p => simp at h
              · cases hch : lookupEntry es c with
                | some ch =>
                    simp only [hch, Option.map_eq_some'] at h
                    obtain ⟨ch2, hch2, rfl⟩ := h
                    simp [FsNode.lookup, lookupEntry_setEntry_ne _ _ hdc]
                | none =>
                    simp only [hch] at h
                    cases p with
                    | nil =>
                        simp only [Option.some.injEq] at h
                        simp [← h, FsNode.lookup, lookupEntry_setEntry_ne _ _ hdc]
                    | cons x p => simp at h

theorem FsNode.setAt_of_lookup_eq {fs : FsNode} {p : List String} {v : FsNode}
    (h : fs.lookup p = some v) : fs.setAt p v = some fs := by
  induction p generalizing fs with
  | nil =>
      simp only [FsNode.lookup, Option.some.injEq] at h
      simp [FsNode.setAt, h]
  | cons c p ih =>
      cases fs with
      | file s => simp [FsNode.lookup] at h
      | dir es =>
          simp only [FsNode.lookup] at h
          cases hch : lookupEntry es c with
          | none => simp [hch] at h
          | some ch =>
              simp only [hch] at h
              simp [FsNode.setAt, hch, ih h, setEntry_of_lookupEntry_eq es hch]

theorem FsNode.setAt_child_exists {fs : FsNode} {p : List String} {ds : List (String × FsNode)}
    (h : fs.lookup p = some (.dir ds)) (c : String) (v : FsNode) :
    ∃ fs2, fs.setAt (p ++ [c]) v = some fs2 := by
  induction p generalizing fs with
  | nil =>
      simp only [FsNode.lookup, Option.some.injEq] at h
      subst h
      cases hch : lookupEntry ds c with
      | some ch => exact ⟨FsNode.dir (setEntry ds c v), by simp [FsNode.setAt, hch]⟩
      | none => exact ⟨FsNode.dir (setEntry ds c v), by simp [FsNode.setAt, hch]⟩
  | cons a p ih =>
      cases fs with
      | file s => simp [FsNode.lookup] at h
      | dir es =>
          simp only [FsNode.lookup] at h
          cases hch : lookupEntry es a with
          | none => simp [hch] at h
          | some ch =>
              simp only [hch] at h
              obtain ⟨ch2, hch2⟩ := ih h
              exact ⟨FsNode.dir (setEntry es a ch2), by simp [FsNode.setAt, hch, hch2]⟩

theorem FsNode.lookup_setAt_child {fs fs2 : FsNode} {p : List String}
    {ds : List (String × FsNode)} {c : String} {v : FsNode}
    (h : fs.lookup p = some (.dir ds)) (hset : fs.setAt (p ++ [c]) v = some fs2) :
    fs2.lookup p = some (.dir (setEntry ds c v)) := by
  induction p generalizing fs fs2 with
  | nil =>
      simp only [FsNode.lookup, Option.some.injEq] at h
      subst h
      cases hch : lookupEntry ds c with
      | some ch =>
          simp only [List.nil_append, FsNode.setAt, hch, Option.map_eq_some'] at hset
          obtain ⟨ch2, hch2, rfl⟩ := hset
          simp only [FsNode.setAt, Option.some.injEq] at hch2
          simp [FsNode.lookup, ← hch2]
      | none =>
          simp only [List.nil_append, FsNode.setAt, hch, Option.some.injEq] at hset
          simp [← hset, FsNode.lookup]
  | cons a p ih =>
      cases fs with
      | file s => simp [FsNode.lookup] at h
      | dir es =>
          simp only [FsNode.lookup] at h
          cases hch : lookupEntry es a with
          | none => simp [hch] at h
          | some ch =>
              simp only [hch] at h
              simp only [List.cons_append, FsNode.setAt, hch, Option.map_eq_some'] at hset
              obtain ⟨ch2, hch2, rfl⟩ := hset
              simp [FsNode.lookup, lookupEntry_setEntry_self, ih h hch2]

/-! ## mkdirp lemmas -/

theorem FsNode.mkdirp_of_dir {fs : FsNode} {p : List String} {ds : List (String × FsNode)}
    (h : fs.lookup p = some (.dir ds)) : fs.mkdirp p = some fs := by
  induction p generalizing fs with
  | nil =>
      simp only [FsNode.lookup, Option.some.injEq] at h
      subst h
      simp [FsNode.mkdirp]
  | cons c p ih =>
      cases fs with
      | file s => simp [FsNode.lookup] at h
      | dir es =>
          simp only [FsNode.lookup] at h
          cases hch : lookupEntry es c with
          | none => simp [hch] at h
          | some ch =>
              simp only [hch] at h
              simp [FsNode.mkdirp, hch, ih h, setEntry_of_lookupEntry_eq es hch]

theorem FsNode.lookup_mkdirp_self {fs fs2 : FsNode} {p : List String}
    (h : fs.mkdirp p = some fs2) : ∃ ds, fs2.lookup p = some (.dir ds) := by
  induction p generalizing fs fs2 with
  | nil =>
      cases fs with
      | file s => simp [FsNode.mkdirp] at h
      | dir es =>
          simp only [FsNode.mkdirp, Option.some.injEq] at h
          exact ⟨es, by simp [← h, FsNode.lookup]⟩
  | cons c p ih =>
      cases fs with
      | file s => simp [FsNode.mkdirp] at h
      | dir es =>
          simp only [FsNode.mkdirp] at h
          cases hch : lookupEntry es c with
          | some ch =>
              simp only [hch, Option.map_eq_some'] at h
              obtain ⟨ch2, hch2, rfl⟩ := h
              obtain ⟨ds, hds⟩ := ih hch2
              exact ⟨ds, by simp [FsNode.lookup, lookupEntry_setEntry_self, hds]⟩
          | none =>
              simp only [hch, Option.map_eq_some'] at h
              obtain ⟨ch2, hch2, rfl⟩ := h
              obtain ⟨ds, hds⟩ := ih hch2
              exact ⟨ds, by simp [FsNode.lookup, lookupEntry_setEntry_self, hds]⟩

theorem FsNode.lookup_mkdirp_of_pathDiv {fs fs2 : FsNode} {p : List String}
    (h : fs.mkdirp p = some fs2) {q : List String} (hd : PathDiv p q) :
    fs2.lookup q = fs.lookup q := by
  induction p generalizing fs fs2 q with
  | nil => exact absurd List.nil_prefix hd.1
  | cons c p ih =>
      cases q with
      | nil => exact absurd List.nil_prefix hd.2
      | cons d q =>
          cases fs with
          | file s => simp [FsNode.mkdirp] at h
          | dir es =>
              simp only [FsNode.mkdirp] at h
              by_cases hdc : d = c
              · subst hdc
                have hpq : PathDiv p q := by
                  constructor
                  · exact fun hp => hd.1 (List.cons_prefix_cons.mpr ⟨rfl, hp⟩)
                  · exact fun hp => hd.2 (List.cons_prefix_cons.mpr ⟨rfl, hp⟩)
                cases hch : lookupEntry es d with
                | some ch =>
                    simp only [hch, Option.map_eq_some'] at h
                    obtain ⟨ch2, hch2, rfl⟩ := h
                    simp [FsNode.lookup, lookupEntry_setEntry_self, hch, ih hch2 hpq]
                | none =>
                    simp only [hch, Option.map_eq_some'] at h
                    obtain ⟨ch2, hch2, rfl⟩ := h
                    have hq : (FsNode.dir []).lookup q = none := by
                      cases q with
                      | nil => exact absurd List.nil_prefix hpq.2
                      | cons x q => simp [FsNode.lookup, lookupEntry]
                    simp [FsNode.lookup, lookupEntry_setEntry_self, hch,
                      ih hch2 hpq, hq]
              · cases hch : lookupEntry es c with
                | some ch =>
                    simp only [hch, Option.map_eq_some'] at h
                    obtain ⟨ch2, hch2, rfl⟩ := h
                    simp [FsNode.lookup, lookupEntry_setEntry_ne _ _ hdc]
                | none =>
                    simp only [hch, Option.map_eq_some'] at h
                    obtain ⟨ch2, hch2, rfl⟩ := h
                    simp [FsNode.lookup, lookupEntry_setEntry_ne _ _ hdc]

theorem FsNode.lookup_mkdirp_fresh {fs fs2 : FsNode} {p : List String}
    (hmiss : fs.lookup p = none) (h : fs.mkdirp p = some fs2) :
    fs2.lookup p = some (.dir []) := by
  induction p generalizing fs fs2 with
  | nil => simp [FsNode.lookup] at hmiss
  | cons c p ih =>
      cases fs with
      | file s => simp [FsNode.mkdirp] at h
      | dir es =>
          simp only [FsNode.mkdirp] at h
          simp only [FsNode.lookup] at hmiss
          cases hch : lookupEntry es c with
          | some ch =>
              simp only [hch] at hmiss
              simp only [hch, Option.map_eq_some'] at h
              obtain ⟨ch2, hch2, rfl⟩ := h
              simp [FsNode.lookup, lookupEntry_setEntry_self, ih hmiss hch2]
          | none =>
              simp only [hch, Option.map_eq_some'] at h
              obtain ⟨ch2, hch2, rfl⟩ := h
              cases p with
              | nil =>
                  simp only [FsNode.mkdirp, Option.some.injEq] at hch2
                  simp [FsNode.lookup, lookupEntry_setEntry_self, ← hch2]
              | cons d p =>
                  have : (FsNode.dir []).lookup (d :: p) = none := by
                    simp [FsNode.lookup, lookupEntry]
                  simp [FsNode.lookup, lookupEntry_setEntry_self, ih this hch2]

/-- Creating a fresh directory as a child of an existing one and then
`rm -rf`-ing it restores the original tree exactly. -/
theorem FsNode.mkdirp_removeAt_roundtrip {fs fs2 : FsNode} {tp : List String}
    {ds : List (String × FsNode)} {c : String}
    (hpar : fs.lookup tp = some (.dir ds)) (hfresh : lookupEntry ds c = none)
    (h : fs.mkdirp (tp ++ [c]) = some fs2) : fs2.removeAt (tp ++ [c]) = fs := by
  induction tp generalizing fs fs2 with
  | nil =>
      simp only [FsNode.lookup, Option.some.injEq] at hpar
      subst hpar
      simp only [List.nil_append, FsNode.mkdirp, hfresh, Option.map_eq_some'] at h
      obtain ⟨ch2, hch2, rfl⟩ := h
      simp only [FsNode.mkdirp, Option.some.injEq] at hch2
      subst hch2
      simp [FsNode.removeAt, setEntry_of_lookupEntry_none ds _ hfresh,
        removeEntry_append_fresh ds _ hfresh]
  | cons a tp ih =>
      cases fs with
      | file s => simp [FsNode.lookup] at hpar
      | dir es =>
          simp only [FsNode.lookup] at hpar
          cases hch : lookupEntry es a with
          | none => simp [hch] at hpar
          | some ch =>
              simp only [hch] at hpar
              simp only [List.cons_append, FsNode.mkdirp, hch, Option.map_eq_some'] at h
              obtain ⟨ch2, hch2, rfl⟩ := h
              have hrm := ih hpar hch2
              cases htp : tp ++ [c] with
              | nil => exact absurd htp (by simp)
              | cons x xs =>
                  rw [htp] at hrm
                  simp only [List.cons_append, FsNode.removeAt, htp,
                    lookupEntry_setEntry_self]
                  rw [hrm, setEntry_setEntry, setEntry_of_lookupEntry_eq es hch]

/-! ## removeAt lemmas -/

theorem FsNode.lookup_removeAt_self (fs : FsNode) {p : List String} (hp : p ≠ []) :
    (fs.removeAt p).lookup p = none := by
  induction p generalizing fs with
  | nil => exact absurd rfl hp
  | cons c p ih =>
      cases fs with
      | file s => simp [FsNode.removeAt, FsNode.lookup]
      | dir es =>
          cases p with
          | nil => simp [FsNode.removeAt, FsNode.lookup, lookupEntry_removeEntry_self]
          | cons d p =>
              cases hch : lookupEntry es c with
              | none => simp [FsNode.removeAt, FsNode.lookup, hch]
              | some ch =>
                  simp [FsNode.removeAt, FsNode.lookup, hch, lookupEntry_setEntry_self,
                    ih ch (by simp)]

theorem lookupEntry_removeEntry_ne (es : List (String × FsNode)) {n m : String}
    (h : m ≠ n) : lookupEntry (removeEntry es n) m = lookupEntry es m := by
  induction es with
  | nil => simp [removeEntry]
  | cons e es ih =>
      obtain ⟨k, w⟩ := e
      by_cases hk : k = n
      · subst hk
        have : ¬ k = m := fun hh => h hh.symm
        simp [removeEntry, lookupEntry, this, ih]
      · by_cases hm : k = m
        · subst hm
          simp [removeEntry, lookupEntry, hk]
        · simp [removeEntry, lookupEntry, hk, hm, ih]

theorem FsNode.lookup_removeAt_of_pathDiv (fs : FsNode) {p q : List String}
    (hd : PathDiv p q) : (fs.removeAt p).lookup q = fs.lookup q := by
  induction p generalizing fs q with
  | nil => exact absurd List.nil_prefix hd.1
  | cons c p ih =>
      cases q with
      | nil => exact absurd List.nil_prefix hd.2
      | cons d q =>
          cases fs with
          | file s => simp [FsNode.removeAt]
          | dir es =>
              by_cases hdc : d = c
              · subst hdc
                have hpq : PathDiv p q := by
                  constructor
                  · exact fun hp => hd.1 (List.cons_prefix_cons.mpr ⟨rfl, hp⟩)
                  · exact fun hp => hd.2 (List.cons_prefix_cons.mpr ⟨rfl, hp⟩)
                cases p with
                | nil => exact absurd List.nil_prefix hpq.1
                | cons x xs =>
                    cases hch : lookupEntry es d with
                    | none => simp [FsNode.removeAt, FsNode.lookup, hch]
                    | some ch =>
                        simp [FsNode.removeAt, FsNode.lookup, hch,
                          lookupEntry_setEntry_self, ih ch hpq]
              · cases p with
                | nil =>
                    simp [FsNode.removeAt, FsNode.lookup,
                      lookupEntry_removeEntry_ne _ hdc]
                | cons x xs =>
                    cases hch : lookupEntry es c with
                    | none => simp [FsNode.removeAt, FsNode.lookup, hch]
                    | some ch =>
                        simp [FsNode.removeAt, FsNode.lookup, hch,
                          lookupEntry_setEntry_ne _ _ hdc]

/-! ## cpMerge lemmas -/

/-- Merging a directory yields a directory. -/
theorem cpMerge_dir_shape {es : List (String × FsNode)} {d : Option FsNode} {m : FsNode}
    (h : cpMerge (.dir es) d = some m) : ∃ ms, m = FsNode.dir ms := by
  match d with
  | none =>
      simp only [cpMerge, Option.map_eq_some'] at h
      obtain ⟨ms, _, rfl⟩ := h
      exact ⟨ms, rfl⟩
  | some (.file _) => simp [cpMerge] at h
  | some (.dir ds) =>
      simp only [cpMerge, Option.map_eq_some'] at h
      obtain ⟨ms, _, rfl⟩ := h
      exact ⟨ms, rfl⟩

/-- An entry name absent from the source is untouched by the merge. -/
theorem cpMergeList_lookupEntry_none {es ds ms : List (String × FsNode)} {n : String}
    (hn : lookupEntry es n = none) (h : cpMergeList es ds = some ms) :
    lookupEntry ms n = lookupEntry ds n := by
  induction es generalizing ds with
  | nil =>
      simp only [cpMergeList, Option.some.injEq] at h
      rw [← h]
  | cons e es ih =>
      obtain ⟨k, s⟩ := e
      by_cases hk : k = n
      · simp [lookupEntry, hk] at hn
      · simp only [lookupEntry, hk, if_neg hk] at hn
        simp only [cpMergeList] at h
        cases hm : cpMerge s (lookupEntry ds k) with
        | none => simp [hm] at h
        | some m0 =>
            simp only [hm] at h
            rw [ih hn h, lookupEntry_setEntry_ne _ _ (fun hh : n = k => hk hh.symm)]

/-- In a well-formed source, each source entry's merge succeeds and its
result is the merge of that entry into the same-named destination
entry. -/
theorem cpMergeList_lookupEntry {es ds ms : List (String × FsNode)} {n : String}
    {ch : FsNode} (hwf : wfList es = true) (h : cpMergeList es ds = some ms)
    (hn : lookupEntry es n = some ch) :
    ∃ mch, cpMerge ch (lookupEntry ds n) = some mch ∧ lookupEntry ms n = some mch := by
  induction es generalizing ds with
  | nil => simp [lookupEntry] at hn
  | cons e es ih =>
      obtain ⟨k, s⟩ := e
      simp only [wfList, Bool.and_eq_true] at hwf
      simp only [cpMergeList] at h
      cases hm : cpMerge s (lookupEntry ds k) with
      | none => simp [hm] at h
      | some m0 =>
          simp only [hm] at h
          by_cases hk : k = n
          · subst hk
            have hsch : s = ch := by simpa [lookupEntry] using hn
            subst hsch
            refine ⟨m0, hm, ?_⟩
            rw [cpMergeList_lookupEntry_none ((nameFresh_iff k es).mp hwf.1.1) h,
              lookupEntry_setEntry_self]
          · simp only [lookupEntry, if_neg hk] at hn
            obtain ⟨mch, hmch, hms⟩ := ih hwf.2 h hn
            refine ⟨mch, ?_, hms⟩
            rwa [lookupEntry_setEntry_ne _ _ (fun hh : n = k => hk hh.symm)] at hmch

mutual
/-- Merging the same well-formed source twice is the same as merging it
once: the copy operation is idempotent. -/
theorem cpMerge_idem : ∀ (s : FsNode) (d : Option FsNode) (m : FsNode),
    s.wf = true → cpMerge s d = some m → cpMerge s (some m) = some m
  | .file _, none, _, _, h => by
      simp only [cpMerge, Option.some.injEq] at h
      rw [← h]
      simp [cpMerge]
  | .file _, some (.file _), _, _, h => by
      simp only [cpMerge, Option.some.injEq] at h
      rw [← h]
      simp [cpMerge]
  | .file _, some (.dir _), _, _, h => by simp [cpMerge] at h
  | .dir es, none, m, hwf, h => by
      simp only [cpMerge, Option.map_eq_some'] at h
      obtain ⟨ms, hms, rfl⟩ := h
      have := cpMergeList_idem es [] ms (by simpa [FsNode.wf] using hwf) hms
      simp [cpMerge, this]
  | .dir _, some (.file _), _, _, h => by simp [cpMerge] at h
  | .dir es, some (.dir ds), m, hwf, h => by
      simp only [cpMerge, Option.map_eq_some'] at h
      obtain ⟨ms, hms, rfl⟩ := h
      have := cpMergeList_idem es ds ms (by simpa [FsNode.wf] using hwf) hms
      simp [cpMerge, this]

/-- List version of `cpMerge_idem`. -/
theorem cpMergeList_idem : ∀ (es ds ms : List (String × FsNode)),
    wfList es = true → cpMergeList es ds = some ms → cpMergeList es ms = some ms
  | [], _, ms, _, h => by
      simp only [cpMergeList, Option.some.injEq] at h
      rw [← h]
      rfl
  | (n, s) :: es, ds, ms, hwf, h => by
      simp only [wfList, Bool.and_eq_true] at hwf
      simp only [cpMergeList] at h
      cases hm : cpMerge s (lookupEntry ds n) with
      | none => simp [hm] at h
      | some m0 =>
          simp only [hm] at h
          have hmsn : lookupEntry ms n = some m0 := by
            rw [cpMergeList_lookupEntry_none ((nameFresh_iff n es).mp hwf.1.1) h,
              lookupEntry_setEntry_self]
          have hidem := cpMerge_idem s (lookupEntry ds n) m0 hwf.1.2 hm
          have htail := cpMergeList_idem es (setEntry ds n m0) ms hwf.2 h
          simp only [cpMergeList, hmsn, hidem]
          rw [setEntry_of_lookupEntry_eq ms hmsn]
          exact htail
end

/-- A file present in a well-formed source tree ends up, with the same
content, at the same relative path in the merge result. -/
theorem cpMerge_lookup_file_src : ∀ (rest : List String) (s : FsNode) (d : Option FsNode)
    (m : FsNode) (c : String), s.wf = true → cpMerge s d = some m →
    s.lookup rest = some (.file c) → m.lookup rest = some (.file c) := by
  intro rest
  induction rest with
  | nil =>
      intro s d m c _ h hs
      simp only [FsNode.lookup, Option.some.injEq] at hs
      subst hs
      cases d with
      | none =>
          simp only [cpMerge, Option.some.injEq] at h
          rw [← h]
          simp [FsNode.lookup]
      | some d0 =>
          cases d0 with
          | file c2 =>
              simp only [cpMerge, Option.some.injEq] at h
              rw [← h]
              simp [FsNode.lookup]
          | dir ds => simp [cpMerge] at h
  | cons n rest ih =>
      intro s d m c hwf h hs
      cases s with
      | file c2 => simp [FsNode.lookup] at hs
      | dir es =>
          simp only [FsNode.lookup] at hs
          cases hch : lookupEntry es n with
          | none => simp [hch] at hs
          | some ch =>
              simp only [hch] at hs
              have hwfl : wfList es = true := by simpa [FsNode.wf] using hwf
              have hchwf : ch.wf = true := wfList_lookupEntry hwfl hch
              cases d with
              | none =>
                  simp only [cpMerge, Option.map_eq_some'] at h
                  obtain ⟨ms, hms, rfl⟩ := h
                  obtain ⟨mch, hmch, hlook⟩ := cpMergeList_lookupEntry hwfl hms hch
                  simp only [FsNode.lookup, hlook]
                  exact ih ch (lookupEntry [] n) mch c hchwf hmch hs
              | some d0 =>
                  cases d0 with
                  | file c2 => simp [cpMerge] at h
                  | dir ds =>
                      simp only [cpMerge, Option.map_eq_some'] at h
                      obtain ⟨ms, hms, rfl⟩ := h
                      obtain ⟨mch, hmch, hlook⟩ := cpMergeList_lookupEntry hwfl hms hch
                      simp only [FsNode.lookup, hlook]
                      exact ih ch (lookupEntry ds n) mch c hchwf hmch hs

/-- A destination node at a relative path the source does not reach at
all survives the merge verbatim: merge does not delete. -/
theorem cpMerge_lookup_dest : ∀ (rest : List String) (s d0 m : FsNode) (v : FsNode),
    s.wf = true → cpMerge s (some d0) = some m → d0.lookup rest = some v →
    s.lookup rest = none → m.lookup rest = some v := by
  intro rest
  induction rest with
  | nil =>
      intro s d0 m v _ _ _ hs
      simp [FsNode.lookup] at hs
  | cons n rest ih =>
      intro s d0 m v hwf h hd hs
      cases d0 with
      | file c2 => simp [FsNode.lookup] at hd
      | dir ds =>
          cases s with
          | file c => simp [cpMerge] at h
          | dir es =>
              simp only [cpMerge, Option.map_eq_some'] at h
              obtain ⟨ms, hms, rfl⟩ := h
              simp only [FsNode.lookup] at hd hs ⊢
              cases hdch : lookupEntry ds n with
              | none => simp [hdch] at hd
              | some dch =>
                  simp only [hdch] at hd
                  cases hch : lookupEntry es n with
                  | none =>
                      rw [cpMergeList_lookupEntry_none hch hms, hdch]
                      exact hd
                  | some ch =>
                      simp only [hch] at hs
                      have hwfl : wfList es = true := by simpa [FsNode.wf] using hwf
                      obtain ⟨mch, hmch, hlook⟩ := cpMergeList_lookupEntry hwfl hms hch
                      rw [hdch] at hmch
                      simp only [hlook]
                      cases ch with
                      | file c3 =>
                          cases rest with
                          | nil => simp [FsNode.lookup] at hs
                          | cons x xs =>
                              cases dch with
                              | file c4 => simp [FsNode.lookup] at hd
                              | dir dds => simp [cpMerge] at hmch
                      | dir ces =>
                          have hchwf : (FsNode.dir ces).wf = true :=
                            wfList_lookupEntry hwfl hch
                          exact ih (.dir ces) dch mch v hchwf hmch hd hs

/-! ## Copy-loop lemmas (local variant) -/

/-- The filesystem carried by a loop result, whether it succeeded or
aborted. -/
def loopFs : Except (FsNode × List String) (FsNode × List String) → FsNode
  | .ok (f, _) => f
  | .error (f, _) => f

theorem lookupEntry_append_fresh (es : List (String × FsNode)) {n k : String} (v : FsNode)
    (hn : lookupEntry es n = none) (hk : k ≠ n) :
    lookupEntry (es ++ [(k, v)]) n = none := by
  induction es with
  | nil => simp [lookupEntry, hk]
  | cons e es ih =>
      obtain ⟨m, w⟩ := e
      by_cases hm : m = n
      · simp [lookupEntry, hm] at hn
      · simp only [lookupEntry, hm, if_neg hm] at hn
        simp [lookupEntry, hm, ih hn]

/-- On success, the loop prints exactly one checkmark line per skill,
in order. -/
theorem jsCopyLoop_ok_lines (src tb : List String) :
    ∀ (skills : List String) (fs fs2 : FsNode) (lines : List String),
    jsCopyLoop src tb fs skills = .ok (fs2, lines) →
    lines = skills.map (fun s => "  ✓ " ++ s) := by
  intro skills
  induction skills with
  | nil =>
      intro fs fs2 lines h
      simp only [jsCopyLoop, Except.ok.injEq, Prod.mk.injEq] at h
      simp [← h.2]
  | cons skill rest ih =>
      intro fs fs2 lines h
      simp only [jsCopyLoop] at h
      cases h1 : fs.lookup (src ++ [skill]) with
      | none => simp [h1] at h
      | some sNode =>
          simp only [h1] at h
          cases h2 : cpMerge sNode (fs.lookup (tb ++ [skill])) with
          | none => simp [h2] at h
          | some merged =>
              simp only [h2] at h
              cases h3 : fs.setAt (tb ++ [skill]) merged with
              | none => simp [h3] at h
              | some fsW =>
                  simp only [h3] at h
                  cases h4 : jsCopyLoop src tb fsW rest with
                  | error p => simp [h4] at h
                  | ok p =>
                      obtain ⟨fs3, lines3⟩ := p
                      simp only [h4, Except.ok.injEq, Prod.mk.injEq] at h
                      simp [← h.2, List.map_cons, ih fsW fs3 lines3 h4]

/-- The loop only writes below `tb ++ [s]` for processed skills `s`;
every path divergent from all of those keeps its original resolution,
whether the loop succeeds or aborts. -/
theorem jsCopyLoop_lookup_preserved (src tb : List String) :
    ∀ (skills : List String) (fs : FsNode) (q : List String),
    (∀ s ∈ skills, PathDiv (tb ++ [s]) q) →
    (loopFs (jsCopyLoop src tb fs skills)).lookup q = fs.lookup q := by
  intro skills
  induction skills with
  | nil => intro fs q _; simp [jsCopyLoop, loopFs]
  | cons skill rest ih =>
      intro fs q hq
      simp only [jsCopyLoop]
      cases h1 : fs.lookup (src ++ [skill]) with
      | none => simp [h1, loopFs]
      | some sNode =>
          cases h2 : cpMerge sNode (fs.lookup (tb ++ [skill])) with
          | none => simp [h1, h2, loopFs]
          | some merged =>
              cases h3 : fs.setAt (tb ++ [skill]) merged with
              | none => simp [h1, h2, h3, loopFs]
              | some fsW =>
                  have hW : fsW.lookup q = fs.lookup q :=
                    FsNode.lookup_setAt_of_pathDiv h3 (hq skill (by simp))
                  have hrest := ih fsW q (fun s hs => hq s (by simp [hs]))
                  cases h4 : jsCopyLoop src tb fsW rest with
                  | error p =>
                      obtain ⟨fs3, lines3⟩ := p
                      simp only [h4, loopFs] at hrest
                      simp [h1, h2, h3, h4, loopFs, hrest, hW]
                  | ok p =>
                      obtain ⟨fs3, lines3⟩ := p
                      simp only [h4, loopFs] at hrest
                      simp [h1, h2, h3, h4, loopFs, hrest, hW]

/-- On success the destination root stays a directory. -/
theorem jsCopyLoop_ok_tb_dir (src tb : List String) :
    ∀ (skills : List String) (fs fs2 : FsNode) (lines : List String)
    (ds : List (String × FsNode)),
    jsCopyLoop src tb fs skills = .ok (fs2, lines) →
    fs.lookup tb = some (.dir ds) →
    ∃ ds2, fs2.lookup tb = some (.dir ds2) := by
  intro skills
  induction skills with
  | nil =>
      intro fs fs2 lines ds h htb
      simp only [jsCopyLoop, Except.ok.injEq, Prod.mk.injEq] at h
      exact ⟨ds, h.1 ▸ htb⟩
  | cons skill rest ih =>
      intro fs fs2 lines ds h htb
      simp only [jsCopyLoop] at h
      cases h1 : fs.lookup (src ++ [skill]) with
      | none => simp [h1] at h
      | some sNode =>
          simp only [h1] at h
          cases h2 : cpMerge sNode (fs.lookup (tb ++ [skill])) with
          | none => simp [h2] at h
          | some merged =>
              simp only [h2] at h
              cases h3 : fs.setAt (tb ++ [skill]) merged with
              | none => simp [h3] at h
              | some fsW =>
                  simp only [h3] at h
                  have hWtb := FsNode.lookup_setAt_child htb h3
                  cases h4 : jsCopyLoop src tb fsW rest with
                  | error p => simp [h4] at h
                  | ok p =>
                      obtain ⟨fs3, lines3⟩ := p
                      simp only [h4, Except.ok.injEq, Prod.mk.injEq] at h
                      obtain ⟨ds2, hds2⟩ := ih fsW fs3 lines3 _ h4 hWtb
                      exact ⟨ds2, h.1 ▸ hds2⟩

/-- Re-running a successful copy loop over the same skills changes
nothing: every merge is absorbed by the previous one. -/
theorem jsCopyLoop_idem (src tb : List String) (hdiv : PathDiv src tb) :
    ∀ (skills : List String) (fs fs2 : FsNode) (lines : List String),
    skills.Nodup →
    (∀ s ∈ skills, ∃ ns, fs.lookup (src ++ [s]) = some ns ∧ ns.wf = true) →
    jsCopyLoop src tb fs skills = .ok (fs2, lines) →
    jsCopyLoop src tb fs2 skills = .ok (fs2, lines) := by
  intro skills
  induction skills with
  | nil =>
      intro fs fs2 lines _ _ h
      simp only [jsCopyLoop, Except.ok.injEq, Prod.mk.injEq] at h
      simp [jsCopyLoop, h.1, h.2]
  | cons skill rest ih =>
      intro fs fs2 lines hnd hsrc h
      simp only [jsCopyLoop] at h
      cases h1 : fs.lookup (src ++ [skill]) with
      | none => simp [h1] at h
      | some sNode =>
          simp only [h1] at h
          cases h2 : cpMerge sNode (fs.lookup (tb ++ [skill])) with
          | none => simp [h2] at h
          | some merged =>
              simp only [h2] at h
              cases h3 : fs.setAt (tb ++ [skill]) merged with
              | none => simp [h3] at h
              | some fsW =>
                  simp only [h3] at h
                  cases h4 : jsCopyLoop src tb fsW rest with
                  | error p => simp [h4] at h
                  | ok p =>
                      obtain ⟨fs3, lines3⟩ := p
                      simp only [h4, Except.ok.injEq, Prod.mk.injEq] at h
                      obtain ⟨hfs3, hlines⟩ := h
                      subst hfs3
                      have hskill_notin : skill ∉ rest := (List.nodup_cons.mp hnd).1
                      -- the source node of this skill is unchanged by the rest
                      have ha1 : fs3.lookup (src ++ [skill]) = some sNode := by
                        have hp := jsCopyLoop_lookup_preserved src tb rest fsW
                          (src ++ [skill])
                          (fun s _ => pathDiv_append (pathDiv_symm hdiv) [s] [skill])
                        rw [h4] at hp
                        simp only [loopFs] at hp
                        rw [hp, FsNode.lookup_setAt_of_pathDiv h3
                          (pathDiv_append (pathDiv_symm hdiv) [skill] [skill]), h1]
                      -- the destination entry of this skill now holds the merge
                      have ha2 : fs3.lookup (tb ++ [skill]) = some merged := by
                        have hp := jsCopyLoop_lookup_preserved src tb rest fsW
                          (tb ++ [skill])
                          (fun s hs => pathDiv_sibling tb
                            (fun hss : s = skill => hskill_notin (hss ▸ hs)))
                        rw [h4] at hp
                        simp only [loopFs] at hp
                        rw [hp, FsNode.lookup_setAt_self h3]
                      obtain ⟨ns, hns, hnswf⟩ := hsrc skill (by simp)
                      have hnseq : ns = sNode := by
                        rw [hns] at h1
                        exact Option.some.inj h1
                      subst hnseq
                      have ha3 : cpMerge ns (some merged) = some merged :=
                        cpMerge_idem ns (fs.lookup (tb ++ [skill])) merged hnswf h2
                      have ha4 : fs3.setAt (tb ++ [skill]) merged = some fs3 :=
                        FsNode.setAt_of_lookup_eq ha2
                      have ha5 : jsCopyLoop src tb fs3 rest = .ok (fs3, lines3) := by
                        refine ih fsW fs3 lines3 (List.nodup_cons.mp hnd).2 ?_ h4
                        intro s hs
                        obtain ⟨ns2, hns2, hns2wf⟩ := hsrc s (by simp [hs])
                        refine ⟨ns2, ?_, hns2wf⟩
                        rw [FsNode.lookup_setAt_of_pathDiv h3
                          (pathDiv_append (pathDiv_symm hdiv) [skill] [s])]
                        exact hns2
                      simp [jsCopyLoop, ha1, ha2, ha3, ha4, ha5, ← hlines]

/-- After a successful run, every skill has a directory entry at the
destination. -/
theorem jsCopyLoop_ok_present (src tb : List String) (hdiv : PathDiv src tb) :
    ∀ (skills : List String) (fs fs2 : FsNode) (lines : List String),
    skills.Nodup →
    (∀ s ∈ skills, ∃ ds, fs.lookup (src ++ [s]) = some (.dir ds)) →
    jsCopyLoop src tb fs skills = .ok (fs2, lines) →
    ∀ s ∈ skills, ∃ ds2, fs2.lookup (tb ++ [s]) = some (.dir ds2) := by
  intro skills
  induction skills with
  | nil => intro fs fs2 lines _ _ _ s hs; simp at hs
  | cons skill rest ih =>
      intro fs fs2 lines hnd hsrc h s hs
      simp only [jsCopyLoop] at h
      cases h1 : fs.lookup (src ++ [skill]) with
      | none => simp [h1] at h
      | some sNode =>
          simp only [h1] at h
          cases h2 : cpMerge sNode (fs.lookup (tb ++ [skill])) with
          | none => simp [h2] at h
          | some merged =>
              simp only [h2] at h
              cases h3 : fs.setAt (tb ++ [skill]) merged with
              | none => simp [h3] at h
              | some fsW =>
                  simp only [h3] at h
                  cases h4 : jsCopyLoop src tb fsW rest with
                  | error p => simp [h4] at h
                  | ok p =>
                      obtain ⟨fs3, lines3⟩ := p
                      simp only [h4, Except.ok.injEq, Prod.mk.injEq] at h
                      obtain ⟨hfs3, _⟩ := h
                      subst hfs3
                      have hskill_notin : skill ∉ rest := (List.nodup_cons.mp hnd).1
                      rcases List.mem_cons.mp hs with hss | hsrest
                      · subst hss
                        obtain ⟨ds, hds⟩ := hsrc s (by simp)
                        have hsn : sNode = FsNode.dir ds := by
                          rw [hds] at h1
                          exact (Option.some.inj h1).symm
                        subst hsn
                        obtain ⟨ms, hms⟩ := cpMerge_dir_shape h2
                        subst hms
                        have hW := FsNode.lookup_setAt_self h3
                        have hp := jsCopyLoop_lookup_preserved src tb rest fsW
                          (tb ++ [s])
                          (fun x hx => pathDiv_sibling tb
                            (fun hxx : x = s => hskill_notin (hxx ▸ hx)))
                        rw [h4] at hp
                        simp only [loopFs] at hp
                        exact ⟨ms, by rw [hp, hW]⟩
                      · refine ih fsW fs3 lines3 (List.nodup_cons.mp hnd).2 ?_ h4 s hsrest
                        intro x hx
                        obtain ⟨ds, hds⟩ := hsrc x (by simp [hx])
                        refine ⟨ds, ?_⟩
                        rw [FsNode.lookup_setAt_of_pathDiv h3
                          (pathDiv_append (pathDiv_symm hdiv) [skill] [x])]
                        exact hds

/-- Starting from a destination root that holds none of the skills,
a successful run appends exactly one directory entry per skill, in
order. -/
theorem jsCopyLoop_ok_names (src tb : List String) (hdiv : PathDiv src tb) :
    ∀ (skills : List String) (fs fs2 : FsNode) (lines : List String)
    (des : List (String × FsNode)),
    skills.Nodup →
    (∀ s ∈ skills, ∃ ds, fs.lookup (src ++ [s]) = some (.dir ds)) →
    jsCopyLoop src tb fs skills = .ok (fs2, lines) →
    fs.lookup tb = some (.dir des) →
    (∀ s ∈ skills, lookupEntry des s = none) →
    ∃ desF, fs2.lookup tb = some (.dir desF) ∧
      desF.map Prod.fst = des.map Prod.fst ++ skills ∧
      (∀ x ∈ desF, x ∈ des ∨ x.2.isDirNode = true) := by
  intro skills
  induction skills with
  | nil =>
      intro fs fs2 lines des _ _ h htb _
      simp only [jsCopyLoop, Except.ok.injEq, Prod.mk.injEq] at h
      exact ⟨des, h.1 ▸ htb, by simp, fun x hx => Or.inl hx⟩
  | cons skill rest ih =>
      intro fs fs2 lines des hnd hsrc h htb hfresh
      simp only [jsCopyLoop] at h
      cases h1 : fs.lookup (src ++ [skill]) with
      | none => simp [h1] at h
      | some sNode =>
          simp only [h1] at h
          cases h2 : cpMerge sNode (fs.lookup (tb ++ [skill])) with
          | none => simp [h2] at h
          | some merged =>
              simp only [h2] at h
              cases h3 : fs.setAt (tb ++ [skill]) merged with
              | none => simp [h3] at h
              | some fsW =>
                  simp only [h3] at h
                  cases h4 : jsCopyLoop src tb fsW rest with
                  | error p => simp [h4] at h
                  | ok p =>
                      obtain ⟨fs3, lines3⟩ := p
                      simp only [h4, Except.ok.injEq, Prod.mk.injEq] at h
                      obtain ⟨hfs3, _⟩ := h
                      subst hfs3
                      have hWtb := FsNode.lookup_setAt_child htb h3
                      have hsetapp : setEntry des skill merged = des ++ [(skill, merged)] :=
                        setEntry_of_lookupEntry_none des merged (hfresh skill (by simp))
                      rw [hsetapp] at hWtb
                      obtain ⟨ds, hds⟩ := hsrc skill (by simp)
                      have hsn : sNode = FsNode.dir ds := by
                        rw [hds] at h1
                        exact (Option.some.inj h1).symm
                      subst hsn
                      obtain ⟨ms, hms⟩ := cpMerge_dir_shape h2
                      subst hms
                      have hrest := ih fsW fs3 lines3 (des ++ [(skill, .dir ms)])
                        (List.nodup_cons.mp hnd).2 ?_ h4 hWtb ?_
                      · obtain ⟨desF, hdF, hnames, hmem⟩ := hrest
                        refine ⟨desF, hdF, ?_, ?_⟩
                        · rw [hnames]
                          simp
                        · intro x hx
                          rcases hmem x hx with hxd | hxdir
                          · rcases List.mem_append.mp hxd with hxd2 | hxd2
                            · exact Or.inl hxd2
                            · simp only [List.mem_singleton] at hxd2
                              subst hxd2
                              exact Or.inr rfl
                          · exact Or.inr hxdir
                      · intro x hx
                        obtain ⟨ds2, hds2⟩ := hsrc x (by simp [hx])
                        refine ⟨ds2, ?_⟩
                        rw [FsNode.lookup_setAt_of_pathDiv h3
                          (pathDiv_append (pathDiv_symm hdiv) [skill] [x])]
                        exact hds2
                      · intro x hx
                        refine lookupEntry_append_fresh des _
                          (hfresh x (by simp [hx])) ?_
                        intro hxx
                        exact (List.nodup_cons.mp hnd).1 (by rw [← hxx] at hx; exact hx)

/-- What a successful run leaves at a given skill's destination entry:
the merge of that skill's source tree into whatever was there before
the run. -/
theorem jsCopyLoop_ok_skill (src tb : List String) (hdiv : PathDiv src tb) :
    ∀ (skills : List String) (fs fs2 : FsNode) (lines : List String) (skill : String),
    skills.Nodup → skill ∈ skills →
    jsCopyLoop src tb fs skills = .ok (fs2, lines) →
    ∃ ns m, fs.lookup (src ++ [skill]) = some ns ∧
      cpMerge ns (fs.lookup (tb ++ [skill])) = some m ∧
      fs2.lookup (tb ++ [skill]) = some m := by
  intro skills
  induction skills with
  | nil => intro fs fs2 lines skill _ hmem; simp at hmem
  | cons sk rest ih =>
      intro fs fs2 lines skill hnd hmem h
      simp only [jsCopyLoop] at h
      cases h1 : fs.lookup (src ++ [sk]) with
      | none => simp [h1] at h
      | some sNode =>
          simp only [h1] at h
          cases h2 : cpMerge sNode (fs.lookup (tb ++ [sk])) with
          | none => simp [h2] at h
          | some merged =>
              simp only [h2] at h
              cases h3 : fs.setAt (tb ++ [sk]) merged with
              | none => simp [h3] at h
              | some fsW =>
                  simp only [h3] at h
                  cases h4 : jsCopyLoop src tb fsW rest with
                  | error p => simp [h4] at h
                  | ok p =>
                      obtain ⟨fs3, lines3⟩ := p
                      simp only [h4, Except.ok.injEq, Prod.mk.injEq] at h
                      obtain ⟨hfs3, _⟩ := h
                      subst hfs3
                      have hsk_notin : sk ∉ rest := (List.nodup_cons.mp hnd).1
                      rcases List.mem_cons.mp hmem with hss | hsrest
                      · subst hss
                        refine ⟨sNode, merged, h1, h2, ?_⟩
                        have hp := jsCopyLoop_lookup_preserved src tb rest fsW
                          (tb ++ [skill])
                          (fun x hx => pathDiv_sibling tb
                            (fun hxx : x = skill => hsk_notin (hxx ▸ hx)))
                        rw [h4] at hp
                        simp only [loopFs] at hp
                        rw [hp, FsNode.lookup_setAt_self h3]
                      · obtain ⟨ns, m, hn, hm, hf⟩ :=
                          ih fsW fs3 lines3 skill (List.nodup_cons.mp hnd).2 hsrest h4
                        have hskne : sk ≠ skill :=
                          fun hh => hsk_notin (hh ▸ hsrest)
                        refine ⟨ns, m, ?_, ?_, hf⟩
                        · rw [FsNode.lookup_setAt_of_pathDiv h3
                            (pathDiv_append (pathDiv_symm hdiv) [sk] [skill])] at hn
                          exact hn
                        · rw [FsNode.lookup_setAt_of_pathDiv h3
                            (pathDiv_sibling tb hskne)] at hm
                          exact hm

/-! ## Further path and sort lemmas -/

theorem pathDiv_append_right {a b : List String} (h : PathDiv a b) (y : List String) :
    PathDiv a (b ++ y) := by
  simpa using pathDiv_append h [] y

theorem pathDiv_append_left {a b : List String} (h : PathDiv a b) (x : List String) :
    PathDiv (a ++ x) b := by
  simpa using pathDiv_append h x []

theorem mem_insertSorted (n x : String) (l : List String) :
    x ∈ insertSorted n l ↔ x = n ∨ x ∈ l := by
  induction l with
  | nil => simp [insertSorted]
  | cons m ms ih =>
      by_cases hle : n ≤ m
      · simp [insertSorted, hle]
      · simp only [insertSorted, if_neg hle, List.mem_cons, ih]
        tauto

theorem mem_sortNames (x : String) (l : List String) :
    x ∈ sortNames l ↔ x ∈ l := by
  induction l with
  | nil => simp [sortNames]
  | cons n ns ih => simp [sortNames, mem_insertSorted, ih]

theorem length_insertSorted (n : String) (l : List String) :
    (insertSorted n l).length = l.length + 1 := by
  induction l with
  | nil => simp [insertSorted]
  | cons m ms ih =>
      by_cases hle : n ≤ m
      · simp [insertSorted, hle]
      · simp [insertSorted, hle, ih]

theorem length_sortNames (l : List String) : (sortNames l).length = l.length := by
  induction l with
  | nil => simp [sortNames]
  | cons n ns ih => simp [sortNames, length_insertSorted, ih]

theorem nodup_insertSorted (n : String) (l : List String) (hn : n ∉ l)
    (hl : l.Nodup) : (insertSorted n l).Nodup := by
  induction l with
  | nil => simp [insertSorted]
  | cons m ms ih =>
      by_cases hle : n ≤ m
      · simp only [insertSorted, if_pos hle]
        exact List.nodup_cons.mpr ⟨hn, hl⟩
      · simp only [insertSorted, if_neg hle, List.nodup_cons, mem_insertSorted]
        obtain ⟨hm, hms⟩ := List.nodup_cons.mp hl
        constructor
        · rintro (hc | hc)
          · exact hn (by simp [hc])
          · exact hm hc
        · exact ih (fun hc => hn (by simp [hc])) hms

theorem nodup_sortNames (l : List String) (hl : l.Nodup) : (sortNames l).Nodup := by
  induction l with
  | nil => simp [sortNames]
  | cons n ns ih =>
      obtain ⟨hn, hns⟩ := List.nodup_cons.mp hl
      exact nodup_insertSorted n (sortNames ns)
        (fun hc => hn ((mem_sortNames n ns).mp hc)) (ih hns)

/-- In a well-formed entry list, membership determines the lookup. -/
theorem wfList_lookupEntry_of_mem {es : List (String × FsNode)} {n : String} {v : FsNode}
    (hwf : wfList es = true) (h : (n, v) ∈ es) : lookupEntry es n = some v := by
  induction es with
  | nil => simp at h
  | cons e es ih =>
      obtain ⟨m, w⟩ := e
      simp only [wfList, Bool.and_eq_true] at hwf
      rcases List.mem_cons.mp h with hh | hh
      · injection hh with h1 h2
        subst h1
        subst h2
        simp [lookupEntry]
      · have hm : m ≠ n := by
          intro hmn
          subst hmn
          have hf := (nameFresh_iff m es).mp hwf.1.1
          rw [ih hwf.2 hh] at hf
          exact Option.noConfusion hf
        simp [lookupEntry, hm, ih hwf.2 hh]

/-- The first entry under a name being a directory puts the name in
`subdirNames`. -/
theorem lookupEntry_dir_mem_subdirNames {es : List (String × FsNode)} {n : String}
    {ds : List (String × FsNode)} (h : lookupEntry es n = some (.dir ds)) :
    n ∈ subdirNames es := by
  induction es with
  | nil => simp [lookupEntry] at h
  | cons e es ih =>
      obtain ⟨m, w⟩ := e
      by_cases hm : m = n
      · subst hm
        have hw : w = FsNode.dir ds := by simpa [lookupEntry] using h
        subst hw
        simp [subdirNames, FsNode.isDirNode]
      · simp only [lookupEntry, if_neg hm] at h
        cases hd : w.isDirNode <;> simp [subdirNames, hd, ih h, hm]

/-- Every glob-matchable name is a subdirectory name. -/
theorem mem_globDirNames_subset {es : List (String × FsNode)} {n : String}
    (h : n ∈ globDirNames es) : n ∈ subdirNames es := by
  induction es with
  | nil => simp [globDirNames] at h
  | cons e es ih =>
      obtain ⟨m, w⟩ := e
      by_cases hc : (w.isDirNode && !(dotName m)) = true
      · have hd : w.isDirNode = true := by
          have hc2 := hc
          simp only [Bool.and_eq_true] at hc2
          exact hc2.1
        simp only [globDirNames, if_pos hc, List.mem_cons] at h
        rcases h with h | h
        · simp [subdirNames, hd, h]
        · simp [subdirNames, hd, ih h]
      · simp only [globDirNames, if_neg hc] at h
        cases hd : w.isDirNode with
        | true => simp [subdirNames, hd, ih h]
        | false => simp [subdirNames, hd, ih h]

/-- In a well-formed entry list the glob-matchable names are distinct. -/
theorem globDirNames_nodup {es : List (String × FsNode)} (hwf : wfList es = true) :
    (globDirNames es).Nodup := by
  induction es with
  | nil => simp [globDirNames]
  | cons e es ih =>
      obtain ⟨m, w⟩ := e
      simp only [wfList, Bool.and_eq_true] at hwf
      have hnot : m ∉ globDirNames es := fun hc =>
        nameFresh_not_mem_subdirNames hwf.1.1 (mem_globDirNames_subset hc)
      by_cases hc : (w.isDirNode && !(dotName m)) = true
      · simp [globDirNames, hc, List.nodup_cons, hnot, ih hwf.2]
      · simp [globDirNames, hc, ih hwf.2]

/-- The first entry under a non-dot name being a directory puts the
name among the glob-matchable ones. -/
theorem lookupEntry_dir_mem_globDirNames {es : List (String × FsNode)} {n : String}
    {ds : List (String × FsNode)} (h : lookupEntry es n = some (.dir ds))
    (hdot : dotName n = false) : n ∈ globDirNames es := by
  induction es with
  | nil => simp [lookupEntry] at h
  | cons e es ih =>
      obtain ⟨m, w⟩ := e
      by_cases hm : m = n
      · subst hm
        have hw : w = FsNode.dir ds := by simpa [lookupEntry] using h
        subst hw
        simp [globDirNames, FsNode.isDirNode, hdot]
      · simp only [lookupEntry, if_neg hm] at h
        by_cases hc : (w.isDirNode && !(dotName m)) = true
        · simp [globDirNames, hc, ih h]
        · simp [globDirNames, hc, ih h]

/-- No subdirectories at all means nothing for the glob to match. -/
theorem globDirNames_eq_nil {es : List (String × FsNode)}
    (h : subdirNames es = []) : globDirNames es = [] := by
  cases hg : globDirNames es with
  | nil => rfl
  | cons x xs =>
      exfalso
      have : x ∈ subdirNames es :=
        mem_globDirNames_subset (by rw [hg]; exact List.mem_cons_self x xs)
      rw [h] at this
      simp at this

/-- Creating a fresh directory entry under an existing parent always
succeeds. -/
theorem FsNode.mkdirp_child_fresh {fs : FsNode} {tp : List String}
    {ds : List (String × FsNode)} {c : String}
    (hpar : fs.lookup tp = some (.dir ds)) (hfresh : lookupEntry ds c = none) :
    ∃ fs2, fs.mkdirp (tp ++ [c]) = some fs2 := by
  induction tp generalizing fs with
  | nil =>
      simp only [FsNode.lookup, Option.some.injEq] at hpar
      subst hpar
      exact ⟨FsNode.dir (setEntry ds c (.dir [])),
        by simp [FsNode.mkdirp, hfresh]⟩
  | cons a tp ih =>
      cases fs with
      | file s => simp [FsNode.lookup] at hpar
      | dir es =>
          simp only [FsNode.lookup] at hpar
          cases hch : lookupEntry es a with
          | none => simp [hch] at hpar
          | some ch =>
              simp only [hch] at hpar
              obtain ⟨ch2, hch2⟩ := ih hpar
              exact ⟨FsNode.dir (setEntry es a ch2),
                by simp [FsNode.mkdirp, hch, hch2]⟩

/-! ## Copy-loop lemmas (remote variant) -/

theorem bashCopyLoop_ok_lines (src tb : List String) :
    ∀ (names : List String) (fs fs2 : FsNode) (lines : List String),
    bashCopyLoop src tb fs names = .ok (fs2, lines) →
    lines = names.map (fun s => "  + " ++ s) := by
  intro names
  induction names with
  | nil =>
      intro fs fs2 lines h
      simp only [bashCopyLoop, Except.ok.injEq, Prod.mk.injEq] at h
      simp [← h.2]
  | cons name rest ih =>
      intro fs fs2 lines h
      simp only [bashCopyLoop] at h
      cases h1 : bashCpR fs (src ++ [name]) (tb ++ [name]) name with
      | none => simp [h1] at h
      | some fsW =>
          simp only [h1] at h
          cases h4 : bashCopyLoop src tb fsW rest with
          | error p => simp [h4] at h
          | ok p =>
              obtain ⟨fs3, lines3⟩ := p
              simp only [h4, Except.ok.injEq, Prod.mk.injEq] at h
              simp [← h.2, List.map_cons, ih fsW fs3 lines3 h4]

/-- `cp -r` only writes below the destination entry (or one level
inside it); unrelated paths are untouched. -/
theorem bashCpR_lookup_preserved {fs fsW : FsNode} {sp dp : List String} {base : String}
    (h : bashCpR fs sp dp base = some fsW) {q : List String}
    (hq : PathDiv dp q) : fsW.lookup q = fs.lookup q := by
  unfold bashCpR at h
  cases h0 : fs.lookup sp with
  | none => rw [h0] at h; exact absurd h (by simp)
  | some sn =>
      rw [h0] at h
      cases sn with
      | file c => exact absurd h (by simp)
      | dir es =>
          cases h1 : fs.lookup dp with
          | none =>
              rw [h1] at h
              simp only [Option.bind_eq_some] at h
              obtain ⟨cnode, _, hset⟩ := h
              exact FsNode.lookup_setAt_of_pathDiv hset hq
          | some dn =>
              rw [h1] at h
              cases dn with
              | file c => exact absurd h (by simp)
              | dir ds =>
                  simp only [Option.bind_eq_some] at h
                  obtain ⟨cnode, _, hset⟩ := h
                  exact FsNode.lookup_setAt_of_pathDiv hset
                    (pathDiv_append_left hq [base])

/-- Loop version of `bashCpR_lookup_preserved`, for both outcomes. -/
theorem bashCopyLoop_lookup_preserved (src tb : List String) :
    ∀ (names : List String) (fs : FsNode) (q : List String),
    (∀ s ∈ names, PathDiv (tb ++ [s]) q) →
    (loopFs (bashCopyLoop src tb fs names)).lookup q = fs.lookup q := by
  intro names
  induction names with
  | nil => intro fs q _; simp [bashCopyLoop, loopFs]
  | cons name rest ih =>
      intro fs q hq
      simp only [bashCopyLoop]
      cases h1 : bashCpR fs (src ++ [name]) (tb ++ [name]) name with
      | none => simp [h1, loopFs]
      | some fsW =>
          have hW : fsW.lookup q = fs.lookup q :=
            bashCpR_lookup_preserved h1 (hq name (by simp))
          have hrest := ih fsW q (fun s hs => hq s (by simp [hs]))
          cases h4 : bashCopyLoop src tb fsW rest with
          | error p =>
              obtain ⟨fs3, lines3⟩ := p
              simp only [h4, loopFs] at hrest
              simp [h1, h4, loopFs, hrest, hW]
          | ok p =>
              obtain ⟨fs3, lines3⟩ := p
              simp only [h4, loopFs] at hrest
              simp [h1, h4, loopFs, hrest, hW]

/-- Starting from a destination root holding none of the names, a
successful remote copy loop appends one directory entry per name, in
order (the fresh-destination branch of `cp -r`). -/
theorem bashCopyLoop_ok_names (src tb : List String) (hdiv : PathDiv src tb) :
    ∀ (names : List String) (fs fs2 : FsNode) (lines : List String)
      (des : List (String × FsNode)),
    names.Nodup →
    (∀ s ∈ names, ∃ ds, fs.lookup (src ++ [s]) = some (.dir ds)) →
    bashCopyLoop src tb fs names = .ok (fs2, lines) →
    fs.lookup tb = some (.dir des) →
    (∀ s ∈ names, lookupEntry des s = none) →
    ∃ desF, fs2.lookup tb = some (.dir desF) ∧
      desF.map Prod.fst = des.map Prod.fst ++ names ∧
      (∀ x ∈ desF, x ∈ des ∨ x.2.isDirNode = true) := by
  intro names
  induction names with
  | nil =>
      intro fs fs2 lines des _ _ h htb _
      simp only [bashCopyLoop, Except.ok.injEq, Prod.mk.injEq] at h
      exact ⟨des, h.1 ▸ htb, by simp, fun x hx => Or.inl hx⟩
  | cons name rest ih =>
      intro fs fs2 lines des hnd hsrc h htb hfresh
      simp only [bashCopyLoop] at h
      cases h1 : bashCpR fs (src ++ [name]) (tb ++ [name]) name with
      | none => simp [h1] at h
      | some fsW =>
          simp only [h1] at h
          cases h4 : bashCopyLoop src tb fsW rest with
          | error p => simp [h4] at h
          | ok p =>
              obtain ⟨fs3, lines3⟩ := p
              simp only [h4, Except.ok.injEq, Prod.mk.injEq] at h
              obtain ⟨hfs3, _⟩ := h
              subst hfs3
              obtain ⟨ds, hds⟩ := hsrc name (by simp)
              have hdest : fs.lookup (tb ++ [name]) = none := by
                rw [FsNode.lookup_append, htb]
                simp [FsNode.lookup, hfresh name (by simp : name ∈ name :: rest)]
              rw [bashCpR] at h1
              rw [hds, hdest] at h1
              simp only [Option.bind_eq_some] at h1
              obtain ⟨cnode, hcm, hset⟩ := h1
              obtain ⟨ms, hms⟩ := cpMerge_dir_shape hcm
              subst hms
              have hWtb := FsNode.lookup_setAt_child htb hset
              have hsetapp : setEntry des name (FsNode.dir ms) =
                  des ++ [(name, FsNode.dir ms)] :=
                setEntry_of_lookupEntry_none des _ (hfresh name (by simp))
              rw [hsetapp] at hWtb
              have hrest := ih fsW fs3 lines3 (des ++ [(name, .dir ms)])
                (List.nodup_cons.mp hnd).2 ?_ h4 hWtb ?_
              · obtain ⟨desF, hdF, hnames, hmem⟩ := hrest
                refine ⟨desF, hdF, ?_, ?_⟩
                · rw [hnames]
                  simp
                · intro x hx
                  rcases hmem x hx with hxd | hxdir
                  · rcases List.mem_append.mp hxd with hxd2 | hxd2
                    · exact Or.inl hxd2
                    · simp only [List.mem_singleton] at hxd2
                      subst hxd2
                      exact Or.inr rfl
                  · exact Or.inr hxdir
              · intro x hx
                obtain ⟨ds2, hds2⟩ := hsrc x (by simp [hx])
                refine ⟨ds2, ?_⟩
                rw [FsNode.lookup_setAt_of_pathDiv hset
                  (pathDiv_append (pathDiv_symm hdiv) [name] [x])]
                exact hds2
              · intro x hx
                refine lookupEntry_append_fresh des _
                  (hfresh x (by simp [hx])) ?_
                intro hxx
                exact (List.nodup_cons.mp hnd).1 (by rw [← hxx] at hx; exact hx)

/-- After a successful remote copy loop, every processed name has a
directory entry at the destination (fresh destinations get the copy,
existing directories receive a nested copy but stay directories). -/
theorem bashCopyLoop_ok_present (src tb : List String) :
    ∀ (names : List String) (fs fs2 : FsNode) (lines : List String),
    names.Nodup →
    bashCopyLoop src tb fs names = .ok (fs2, lines) →
    ∀ s ∈ names, ∃ ds2, fs2.lookup (tb ++ [s]) = some (.dir ds2) := by
  intro names
  induction names with
  | nil => intro fs fs2 lines _ _ s hs; simp at hs
  | cons name rest ih =>
      intro fs fs2 lines hnd h s hs
      simp only [bashCopyLoop] at h
      cases h1 : bashCpR fs (src ++ [name]) (tb ++ [name]) name with
      | none => simp [h1] at h
      | some fsW =>
          simp only [h1] at h
          cases h4 : bashCopyLoop src tb fsW rest with
          | error p => simp [h4] at h
          | ok p =>
              obtain ⟨fs3, lines3⟩ := p
              simp only [h4, Except.ok.injEq, Prod.mk.injEq] at h
              obtain ⟨hfs3, _⟩ := h
              subst hfs3
              have hname_notin : name ∉ rest := (List.nodup_cons.mp hnd).1
              rcases List.mem_cons.mp hs with hss | hsrest
              · subst hss
                have hW : ∃ ds2, fsW.lookup (tb ++ [s]) = some (.dir ds2) := by
                  rw [bashCpR] at h1
                  cases h0 : fs.lookup (src ++ [s]) with
                  | none => rw [h0] at h1; exact absurd h1 (by simp)
                  | some sn =>
                      rw [h0] at h1
                      cases sn with
                      | file c => exact absurd h1 (by simp)
                      | dir es =>
                          cases hdst : fs.lookup (tb ++ [s]) with
                          | none =>
                              rw [hdst] at h1
                              simp only [Option.bind_eq_some] at h1
                              obtain ⟨cnode, hcm, hset⟩ := h1
                              obtain ⟨ms, hms⟩ := cpMerge_dir_shape hcm
                              subst hms
                              exact ⟨ms, FsNode.lookup_setAt_self hset⟩
                          | some dn =>
                              rw [hdst] at h1
                              cases dn with
                              | file c => exact absurd h1 (by simp)
                              | dir ds =>
                                  simp only [Option.bind_eq_some] at h1
                                  obtain ⟨cnode, hcm, hset⟩ := h1
                                  exact ⟨setEntry ds s cnode,
                                    FsNode.lookup_setAt_child hdst hset⟩
                obtain ⟨ds2, hds2⟩ := hW
                have hp := bashCopyLoop_lookup_preserved src tb rest fsW (tb ++ [s])
                  (fun x hx => pathDiv_sibling tb
                    (fun hxx : x = s => hname_notin (hxx ▸ hx)))
                rw [h4] at hp
                simp only [loopFs] at hp
                exact ⟨ds2, by rw [hp, hds2]⟩
              · exact ih fsW fs3 lines3 (List.nodup_cons.mp hnd).2 h4 s hsrest

/-! ## Inversion of successful runs -/

/-- What a zero exit status of the local installer implies: every stage
succeeded, and the outcome fields are the success ones. -/
theorem jsInstall_inversion (e : JsEnv) (fs0 : FsNode)
    (hz : (jsInstall e fs0).exitCode = 0) :
    ∃ tb es fs1 fs2 lines,
      jsTargetBase e = some tb ∧
      fs0.lookup (jsSkillsSource e) = some (.dir es) ∧
      subdirNames es ≠ [] ∧
      fs0.mkdirp tb = some fs1 ∧
      jsCopyLoop (jsSkillsSource e) tb fs1 (subdirNames es) = .ok (fs2, lines) ∧
      (jsInstall e fs0).fs = fs2 ∧
      (jsInstall e fs0).stdout =
        ["",
         (if jsIsGlobal e then "Installing Next.js Claude skills globally..."
          else "Installing Next.js Claude skills to project..."),
         "Target: " ++ showPath tb, ""] ++ lines ++
        ["", "Done! " ++ toString (subdirNames es).length ++ " skills installed.",
         "", "Skills are auto-activated by Claude Code based on your prompts.",
         "No additional configuration needed.", ""] := by
  cases htb : jsTargetBase e with
  | none =>
      rw [show (jsInstall e fs0).exitCode = 1 by simp [jsInstall, htb]] at hz
      exact absurd hz (by decide)
  | some tb =>
      cases hsrc : fs0.lookup (jsSkillsSource e) with
      | none =>
          rw [show (jsInstall e fs0).exitCode = 1 by simp [jsInstall, htb, hsrc]] at hz
          exact absurd hz (by decide)
      | some srcNode =>
          cases srcNode with
          | file c =>
              rw [show (jsInstall e fs0).exitCode = 1 by
                simp [jsInstall, htb, hsrc]] at hz
              exact absurd hz (by decide)
          | dir es =>
              by_cases hne : subdirNames es = []
              · rw [show (jsInstall e fs0).exitCode = 1 by
                  simp [jsInstall, htb, hsrc, hne]] at hz
                exact absurd hz (by decide)
              · cases hmk : fs0.mkdirp tb with
                | none =>
                    rw [show (jsInstall e fs0).exitCode = 1 by
                      simp [jsInstall, htb, hsrc, hne, hmk]] at hz
                    exact absurd hz (by decide)
                | some fs1 =>
                    cases hloop :
                        jsCopyLoop (jsSkillsSource e) tb fs1 (subdirNames es) with
                    | error p =>
                        obtain ⟨f, l⟩ := p
                        rw [show (jsInstall e fs0).exitCode = 1 by
                          simp [jsInstall, htb, hsrc, hne, hmk, hloop]] at hz
                        exact absurd hz (by decide)
                    | ok p =>
                        obtain ⟨fs2, lines⟩ := p
                        refine ⟨tb, es, fs1, fs2, lines, rfl, rfl, hne, hmk, hloop,
                          ?_, ?_⟩
                        · simp [jsInstall, htb, hsrc, hne, hmk, hloop]
                        · simp [jsInstall, htb, hsrc, hne, hmk, hloop]

/-- What a zero exit status of the remote installer implies. -/
theorem bashInstall_inversion (b : BashEnv) (fs0 : FsNode)
    (hz : (bashInstall b fs0).exitCode = 0) :
    ∃ tb fsT r fs1 fs2 fs3 lines,
      bashTarget b = some tb ∧
      fs0.mkdirp b.tmpPath = some fsT ∧
      b.cloneResult = some r ∧
      fsT.setAt (b.tmpPath ++ ["repo"]) r = some fs1 ∧
      fs1.mkdirp tb = some fs2 ∧
      bashCopyLoop (b.tmpPath ++ ["repo", "skills"]) tb fs2
        (bashGlob fs2 (b.tmpPath ++ ["repo", "skills"])) = .ok (fs3, lines) ∧
      (bashInstall b fs0).fs = fs3.removeAt b.tmpPath ∧
      (bashInstall b fs0).stdout =
        ["", "Cloning Next.js Claude skills...",
         (if bashIsGlobal b then "Installing globally to " ++ showPath tb
          else "Installing to project at " ++ showPath tb), ""] ++ lines ++
        ["", "Done! " ++
           toString (bashGlob fs2 (b.tmpPath ++ ["repo", "skills"])).length ++
           " skills installed.",
         "", "Skills are auto-activated by Claude Code based on your prompts.",
         "No additional configuration needed.", ""] := by
  cases htb : bashTarget b with
  | none =>
      rw [show (bashInstall b fs0).exitCode = 1 by simp [bashInstall, htb]] at hz
      exact absurd hz (by decide)
  | some tb =>
      cases hmkT : fs0.mkdirp b.tmpPath with
      | none =>
          rw [show (bashInstall b fs0).exitCode = 1 by
            simp [bashInstall, htb, hmkT]] at hz
          exact absurd hz (by decide)
      | some fsT =>
          cases hcl : b.cloneResult with
          | none =>
              rw [show (bashInstall b fs0).exitCode = 128 by
                simp [bashInstall, bashFinish, bashMain, htb, hmkT, hcl]] at hz
              exact absurd hz (by decide)
          | some r =>
              cases hset : fsT.setAt (b.tmpPath ++ ["repo"]) r with
              | none =>
                  rw [show (bashInstall b fs0).exitCode = 1 by
                    simp [bashInstall, bashFinish, bashMain, htb, hmkT, hcl, hset]] at hz
                  exact absurd hz (by decide)
              | some fs1 =>
                  cases hmk2 : fs1.mkdirp tb with
                  | none =>
                      rw [show (bashInstall b fs0).exitCode = 1 by
                        simp [bashInstall, bashFinish, bashMain, htb, hmkT, hcl,
                          hset, hmk2]] at hz
                      exact absurd hz (by decide)
                  | some fs2 =>
                      cases hloop : bashCopyLoop (b.tmpPath ++ ["repo", "skills"]) tb fs2
                          (bashGlob fs2 (b.tmpPath ++ ["repo", "skills"])) with
                      | error p =>
                          obtain ⟨f, l⟩ := p
                          rw [show (bashInstall b fs0).exitCode = 1 by
                            simp [bashInstall, bashFinish, bashMain, htb, hmkT, hcl,
                              hset, hmk2, hloop]] at hz
                          exact absurd hz (by decide)
                      | ok p =>
                          obtain ⟨fs3, lines⟩ := p
                          refine ⟨tb, fsT, r, fs1, fs2, fs3, lines, rfl, rfl, rfl,
                            hset, hmk2, hloop, ?_, ?_⟩
                          · simp [bashInstall, bashFinish, bashMain, htb, hmkT, hcl,
                              hset, hmk2, hloop]
                          · simp [bashInstall, bashFinish, bashMain, htb, hmkT, hcl,
                              hset, hmk2, hloop]

/-- `mkdir -p` fails when the full path already names a file. -/
theorem FsNode.mkdirp_of_file {fs : FsNode} {p : List String} {c : String}
    (h : fs.lookup p = some (.file c)) : fs.mkdirp p = none := by
  induction p generalizing fs with
  | nil =>
      simp only [FsNode.lookup, Option.some.injEq] at h
      subst h
      simp [FsNode.mkdirp]
  | cons a p ih =>
      cases fs with
      | file s => simp [FsNode.mkdirp]
      | dir es =>
          simp only [FsNode.lookup] at h
          cases hch : lookupEntry es a with
          | none => simp [hch] at h
          | some ch =>
              simp only [hch] at h
              simp [FsNode.mkdirp, hch, ih h]

/-! ## Claim theorems -/

/-- C1: For every invocation of either installer variant, the
destination root is `.claude/skills` under the user's home directory
exactly when the `--global` flag is present among the arguments, and
the same subpath under the current working directory otherwise; no
other input (script location, other arguments, filesystem) influences
the selection. -/
theorem C1_destination_selection :
    (∀ e : JsEnv,
      (jsIsGlobal e = true →
        jsTargetBase e = (jsHome e).map (· ++ [".claude", "skills"])) ∧
      (jsIsGlobal e = false →
        jsTargetBase e = some (e.cwd ++ [".claude", "skills"]))) ∧
    (∀ e e' : JsEnv, jsIsGlobal e = jsIsGlobal e' → jsHome e = jsHome e' →
      e.cwd = e'.cwd → jsTargetBase e = jsTargetBase e') ∧
    (∀ b : BashEnv,
      (bashIsGlobal b = true →
        bashTarget b = b.envHome.map (· ++ [".claude", "skills"])) ∧
      (bashIsGlobal b = false →
        bashTarget b = some (b.cwd ++ [".claude", "skills"]))) ∧
    (∀ b b' : BashEnv, bashIsGlobal b = bashIsGlobal b' → b.envHome = b'.envHome →
      b.cwd = b'.cwd → bashTarget b = bashTarget b') := by
  refine ⟨fun e => ⟨fun hg => ?_, fun hg => ?_⟩,
    fun e e' h1 h2 h3 => ?_,
    fun b => ⟨fun hg => ?_, fun hg => ?_⟩,
    fun b b' h1 h2 h3 => ?_⟩
  · simp [jsTargetBase, hg]
  · simp [jsTargetBase, hg]
  · simp [jsTargetBase, h1, h2, h3]
  · simp [bashTarget, hg]
  · simp [bashTarget, hg]
  · simp [bashTarget, h1, h2, h3]

/-- Witness for C1 at concrete environments. -/
theorem C1_destination_selection_witness :
    jsTargetBase ⟨["--global"], some ["home", "u"], none, ["proj"], ["app", "bin"]⟩ =
      some ["home", "u", ".claude", "skills"] ∧
    jsTargetBase ⟨[], some ["home", "u"], none, ["proj"], ["app", "bin"]⟩ =
      some ["proj", ".claude", "skills"] ∧
    bashTarget ⟨["--global"], some ["home", "u"], ["proj"], ["tmp", "t"], none⟩ =
      some ["home", "u", ".claude", "skills"] ∧
    bashTarget ⟨[], some ["home", "u"], ["proj"], ["tmp", "t"], none⟩ =
      some ["proj", ".claude", "skills"] := by
  refine ⟨?_, ?_, ?_, ?_⟩
  · rw [(C1_destination_selection.1
      ⟨["--global"], some ["home", "u"], none, ["proj"], ["app", "bin"]⟩).1 (by decide)]
    rfl
  · rw [(C1_destination_selection.1
      ⟨[], some ["home", "u"], none, ["proj"], ["app", "bin"]⟩).2 (by decide)]
    rfl
  · rw [(C1_destination_selection.2.2.1
      ⟨["--global"], some ["home", "u"], ["proj"], ["tmp", "t"], none⟩).1 (by decide)]
    rfl
  · rw [(C1_destination_selection.2.2.1
      ⟨[], some ["home", "u"], ["proj"], ["tmp", "t"], none⟩).2 (by decide)]
    rfl

/-- C10: In the local-payload variant, if `--global` is passed and
neither HOME nor USERPROFILE is set, the run fails (the `path.join`
TypeError) before any filesystem mutation and prints nothing to
standard output. -/
theorem C10_global_without_home (e : JsEnv) (fs0 : FsNode)
    (hg : jsIsGlobal e = true) (hh : e.envHome = none) (hu : e.envUserProfile = none) :
    (jsInstall e fs0).exitCode ≠ 0 ∧ (jsInstall e fs0).fs = fs0 ∧
    (jsInstall e fs0).stdout = [] := by
  have htb : jsTargetBase e = none := by
    simp [jsTargetBase, hg, jsHome, hh, hu]
  refine ⟨?_, ?_, ?_⟩ <;> simp [jsInstall, htb]

/-- Witness for C10 at a concrete environment. -/
theorem C10_global_without_home_witness :
    (jsInstall ⟨["--global"], none, none, ["proj"], ["app", "bin"]⟩
        (.dir [("proj", .dir [])])).exitCode ≠ 0 ∧
    (jsInstall ⟨["--global"], none, none, ["proj"], ["app", "bin"]⟩
        (.dir [("proj", .dir [])])).fs = .dir [("proj", .dir [])] ∧
    (jsInstall ⟨["--global"], none, none, ["proj"], ["app", "bin"]⟩
        (.dir [("proj", .dir [])])).stdout = [] :=
  C10_global_without_home ⟨["--global"], none, none, ["proj"], ["app", "bin"]⟩
    (.dir [("proj", .dir [])]) (by decide) rfl rfl

/-- C6: When the payload source cannot be located (local variant) or
the remote snapshot cannot be fetched (remote variant), the process
reports an error, exits non-zero, and no destination mutation has
occurred: the filesystem is exactly as before the run (for the remote
variant, the fresh temporary directory has been created and removed
again). -/
theorem C6_payload_missing :
    (∀ (e : JsEnv) (fs0 : FsNode), fs0.lookup (jsSkillsSource e) = none →
      (jsInstall e fs0).exitCode ≠ 0 ∧ (jsInstall e fs0).fs = fs0 ∧
      (jsInstall e fs0).stderr ≠ []) ∧
    (∀ (b : BashEnv) (fs0 : FsNode) (tp : List String) (c : String)
      (ds : List (String × FsNode)),
      b.cloneResult = none → b.tmpPath = tp ++ [c] →
      fs0.lookup tp = some (.dir ds) → lookupEntry ds c = none →
      (bashInstall b fs0).exitCode ≠ 0 ∧ (bashInstall b fs0).fs = fs0 ∧
      (bashInstall b fs0).stderr ≠ []) := by
  constructor
  · intro e fs0 hsrc
    cases htb : jsTargetBase e with
    | none => refine ⟨?_, ?_, ?_⟩ <;> simp [jsInstall, htb]
    | some tb => refine ⟨?_, ?_, ?_⟩ <;> simp [jsInstall, htb, hsrc]
  · intro b fs0 tp c ds hcl htmp hpar hfresh
    cases htb : bashTarget b with
    | none => refine ⟨?_, ?_, ?_⟩ <;> simp [bashInstall, htb]
    | some tb =>
        obtain ⟨fsT, hmkT⟩ := FsNode.mkdirp_child_fresh hpar hfresh (c := c)
        have hmkT2 : fs0.mkdirp b.tmpPath = some fsT := by rw [htmp]; exact hmkT
        have hrm : fsT.removeAt b.tmpPath = fs0 := by
          rw [htmp]
          exact FsNode.mkdirp_removeAt_roundtrip hpar hfresh hmkT
        refine ⟨?_, ?_, ?_⟩ <;>
          simp [bashInstall, htb, hmkT2, bashFinish, bashMain, hcl, hrm]

/-- Witness for C6 at concrete runs with a missing payload / failing
clone. -/
theorem C6_payload_missing_witness :
    ((jsInstall ⟨[], some ["home"], none, ["proj"], ["app", "bin"]⟩
        (.dir [("proj", .dir [])])).exitCode ≠ 0 ∧
      (jsInstall ⟨[], some ["home"], none, ["proj"], ["app", "bin"]⟩
        (.dir [("proj", .dir [])])).fs = .dir [("proj", .dir [])] ∧
      (jsInstall ⟨[], some ["home"], none, ["proj"], ["app", "bin"]⟩
        (.dir [("proj", .dir [])])).stderr ≠ []) ∧
    ((bashInstall ⟨[], some ["home"], ["proj"], ["tmp", "t1"], none⟩
        (.dir [("tmp", .dir []), ("proj", .dir [])])).exitCode ≠ 0 ∧
      (bashInstall ⟨[], some ["home"], ["proj"], ["tmp", "t1"], none⟩
        (.dir [("tmp", .dir []), ("proj", .dir [])])).fs =
        .dir [("tmp", .dir []), ("proj", .dir [])] ∧
      (bashInstall ⟨[], some ["home"], ["proj"], ["tmp", "t1"], none⟩
        (.dir [("tmp", .dir []), ("proj", .dir [])])).stderr ≠ []) :=
  ⟨C6_payload_missing.1 ⟨[], some ["home"], none, ["proj"], ["app", "bin"]⟩
      (.dir [("proj", .dir [])]) rfl,
   C6_payload_missing.2 ⟨[], some ["home"], ["proj"], ["tmp", "t1"], none⟩
      (.dir [("tmp", .dir []), ("proj", .dir [])]) ["tmp"] "t1" [] rfl rfl rfl rfl⟩

/-- C7: In the remote variant the temporary directory is gone from the
final filesystem on every exit path, and when the fetch fails the
destination root is untouched and the exit status non-zero. -/
theorem C7_tmp_cleanup (b : BashEnv) (fs0 : FsNode)
    (hfresh : fs0.lookup b.tmpPath = none) :
    ((bashInstall b fs0).fs.lookup b.tmpPath = none) ∧
    (b.cloneResult = none → ∀ tb, bashTarget b = some tb → PathDiv b.tmpPath tb →
      (bashInstall b fs0).fs.lookup tb = fs0.lookup tb ∧
      (bashInstall b fs0).exitCode ≠ 0) := by
  have htne : b.tmpPath ≠ [] := by
    intro hnil
    rw [hnil] at hfresh
    simp [FsNode.lookup] at hfresh
  constructor
  · cases htb : bashTarget b with
    | none => simpa [bashInstall, htb] using hfresh
    | some tb =>
        cases hmkT : fs0.mkdirp b.tmpPath with
        | none => simpa [bashInstall, htb, hmkT] using hfresh
        | some fsT =>
            simp only [bashInstall, htb, hmkT, bashFinish]
            exact FsNode.lookup_removeAt_self _ htne
  · intro hcl tb htb hdiv
    cases hmkT : fs0.mkdirp b.tmpPath with
    | none => refine ⟨?_, ?_⟩ <;> simp [bashInstall, htb, hmkT]
    | some fsT =>
        have h1 : (bashInstall b fs0).fs = fsT.removeAt b.tmpPath := by
          simp [bashInstall, htb, hmkT, bashFinish, bashMain, hcl]
        have h2 : (bashInstall b fs0).exitCode = 128 := by
          simp [bashInstall, htb, hmkT, bashFinish, bashMain, hcl]
        refine ⟨?_, by simp [h2]⟩
        rw [h1, FsNode.lookup_removeAt_of_pathDiv _ hdiv,
          FsNode.lookup_mkdirp_of_pathDiv hmkT hdiv]

/-- Witness for C7 at a concrete failing fetch. -/
theorem C7_tmp_cleanup_witness :
    ((bashInstall ⟨[], some ["home"], ["proj"], ["tmp", "t1"], none⟩
        (.dir [("tmp", .dir []), ("proj", .dir [])])).fs.lookup ["tmp", "t1"] = none) ∧
    ((bashInstall ⟨[], some ["home"], ["proj"], ["tmp", "t1"], none⟩
        (.dir [("tmp", .dir []), ("proj", .dir [])])).fs.lookup
        ["proj", ".claude", "skills"] =
      (FsNode.dir [("tmp", .dir []), ("proj", .dir [])]).lookup
        ["proj", ".claude", "skills"] ∧
      (bashInstall ⟨[], some ["home"], ["proj"], ["tmp", "t1"], none⟩
        (.dir [("tmp", .dir []), ("proj", .dir [])])).exitCode ≠ 0) := by
  have h := C7_tmp_cleanup ⟨[], some ["home"], ["proj"], ["tmp", "t1"], none⟩
    (.dir [("tmp", .dir []), ("proj", .dir [])]) rfl
  exact ⟨h.1, h.2 rfl ["proj", ".claude", "skills"] rfl
    (pathDiv_of_head_ne (by decide))⟩

/-- C8 counterexample: with a payload holding the two skill directories
`.hidden` and `alpha`, the remote variant succeeds, but bash's `*/`
glob (no `dotglob`) never matches the dot-named directory: stdout has a
single progress line and reports "Done! 1 skills installed.", while the
payload source holds 2 skill directories — so the summary count does
not equal the number of skill directories in the payload source, and
there is no progress line for the skill `.hidden`. -/
theorem C8_counterexample :
    (bashInstall ⟨[], some ["home"], ["proj"], ["tmp", "t1"],
        some (.dir [("skills", .dir
          [(".hidden", .dir [("SKILL.md", .file "h")]),
           ("alpha", .dir [("SKILL.md", .file "a")])])])⟩
      (.dir [("tmp", .dir []), ("proj", .dir [])])).exitCode = 0 ∧
    (bashInstall ⟨[], some ["home"], ["proj"], ["tmp", "t1"],
        some (.dir [("skills", .dir
          [(".hidden", .dir [("SKILL.md", .file "h")]),
           ("alpha", .dir [("SKILL.md", .file "a")])])])⟩
      (.dir [("tmp", .dir []), ("proj", .dir [])])).stdout =
      ["", "Cloning Next.js Claude skills...",
       "Installing to project at " ++ showPath ["proj", ".claude", "skills"], "",
       "  + alpha",
       "", "Done! 1 skills installed.",
       "", "Skills are auto-activated by Claude Code based on your prompts.",
       "No additional configuration needed.", ""] ∧
    (subdirNames
      [(".hidden", FsNode.dir [("SKILL.md", FsNode.file "h")]),
       ("alpha", FsNode.dir [("SKILL.md", FsNode.file "a")])]).length = 2 := by
  refine ⟨rfl, rfl, rfl⟩

/-- C8 amended: on a successful run of either variant, standard output
is the banner, then exactly one progress line per installed skill
(glyph then name), then a summary line with the installed count.  The
local variant enumerates every skill directory of the payload source,
so its count equals their number; the remote variant enumerates only
the glob-visible skill directories (names not beginning with a dot),
glob-sorted, and its count equals their number — which is less than
the number of payload skill directories when a dot-named one exists. -/
theorem C8_output_contract :
    (∀ (e : JsEnv) (fs0 : FsNode) (tb : List String) (es : List (String × FsNode)),
      jsTargetBase e = some tb →
      fs0.lookup (jsSkillsSource e) = some (.dir es) →
      (jsInstall e fs0).exitCode = 0 →
      (jsInstall e fs0).stdout =
        ["",
         (if jsIsGlobal e then "Installing Next.js Claude skills globally..."
          else "Installing Next.js Claude skills to project..."),
         "Target: " ++ showPath tb, ""] ++
        (subdirNames es).map (fun s => "  ✓ " ++ s) ++
        ["", "Done! " ++ toString (subdirNames es).length ++ " skills installed.",
         "", "Skills are auto-activated by Claude Code based on your prompts.",
         "No additional configuration needed.", ""]) ∧
    (∀ (b : BashEnv) (fs0 : FsNode) (tb : List String) (r : FsNode)
       (es : List (String × FsNode)),
      bashTarget b = some tb → b.cloneResult = some r →
      r.lookup ["skills"] = some (.dir es) → PathDiv b.tmpPath tb →
      (bashInstall b fs0).exitCode = 0 →
      ((bashInstall b fs0).stdout =
        ["", "Cloning Next.js Claude skills...",
         (if bashIsGlobal b then "Installing globally to " ++ showPath tb
          else "Installing to project at " ++ showPath tb), ""] ++
        (sortNames (globDirNames es)).map (fun s => "  + " ++ s) ++
        ["", "Done! " ++ toString (globDirNames es).length ++ " skills installed.",
         "", "Skills are auto-activated by Claude Code based on your prompts.",
         "No additional configuration needed.", ""]) ∧
      (∀ x, x ∈ sortNames (globDirNames es) ↔ x ∈ globDirNames es)) := by
  constructor
  · intro e fs0 tb es htb hsrc hz
    obtain ⟨tb2, es2, fs1, fs2, lines, htb2, hsrc2, hne, hmk, hloop, _, hout⟩ :=
      jsInstall_inversion e fs0 hz
    rw [htb] at htb2
    injection htb2 with htb2
    subst htb2
    rw [hsrc] at hsrc2
    injection hsrc2 with hsrc2
    injection hsrc2 with hsrc2
    subst hsrc2
    rw [hout, jsCopyLoop_ok_lines _ _ _ _ _ _ hloop]
  · intro b fs0 tb r es htb hcl hsk hdiv hz
    obtain ⟨tb2, fsT, r2, fs1, fs2, fs3, lines, htb2, hmkT, hcl2, hset, hmk2, hloop,
      _, hout⟩ := bashInstall_inversion b fs0 hz
    rw [htb] at htb2
    injection htb2 with htb2
    subst htb2
    rw [hcl] at hcl2
    injection hcl2 with hcl2
    subst hcl2
    have hskills : fs2.lookup (b.tmpPath ++ ["repo", "skills"]) = some (.dir es) := by
      have hrepo : fs1.lookup (b.tmpPath ++ ["repo"]) = some r :=
        FsNode.lookup_setAt_self hset
      have hpath : b.tmpPath ++ ["repo", "skills"] =
          (b.tmpPath ++ ["repo"]) ++ ["skills"] := by simp
      have h1 : fs1.lookup (b.tmpPath ++ ["repo", "skills"]) = some (.dir es) := by
        rw [hpath, FsNode.lookup_append, hrepo]
        simpa using hsk
      rw [FsNode.lookup_mkdirp_of_pathDiv hmk2
        (pathDiv_append_right (pathDiv_symm hdiv) ["repo", "skills"]), h1]
    have hglob : bashGlob fs2 (b.tmpPath ++ ["repo", "skills"]) =
        match sortNames (globDirNames es) with
        | [] => ["*"]
        | x :: xs => x :: xs := by
      simp [bashGlob, hskills]
    cases hs : sortNames (globDirNames es) with
    | nil =>
        exfalso
        have hglob2 : bashGlob fs2 (b.tmpPath ++ ["repo", "skills"]) = ["*"] := by
          rw [hglob, hs]
        rw [hglob2] at hloop
        have hsubnil : globDirNames es = [] := by
          have := length_sortNames (globDirNames es)
          rw [hs] at this
          exact List.length_eq_zero.mp this.symm
        have hstar : fs2.lookup ((b.tmpPath ++ ["repo", "skills"]) ++ ["*"]) ≠
            some (.dir []) ∨ True := Or.inr trivial
        simp only [bashCopyLoop] at hloop
        cases hcp : bashCpR fs2 ((b.tmpPath ++ ["repo", "skills"]) ++ ["*"])
            (tb ++ ["*"]) "*" with
        | none => rw [hcp] at hloop; simp at hloop
        | some fsW =>
            rw [bashCpR] at hcp
            rw [FsNode.lookup_append, hskills] at hcp
            cases hstar2 : lookupEntry es "*" with
            | none => simp [FsNode.lookup, hstar2] at hcp
            | some v =>
                cases v with
                | file c => simp [FsNode.lookup, hstar2] at hcp
                | dir ds =>
                    have : "*" ∈ globDirNames es :=
                      lookupEntry_dir_mem_globDirNames hstar2 (by decide)
                    rw [hsubnil] at this
                    simp at this
    | cons x xs =>
        have hglob2 : bashGlob fs2 (b.tmpPath ++ ["repo", "skills"]) = x :: xs := by
          rw [hglob, hs]
        rw [hglob2] at hloop hout
        have hlines := bashCopyLoop_ok_lines _ _ _ _ _ _ hloop
        have hlen : (x :: xs).length = (globDirNames es).length := by
          rw [← hs, length_sortNames]
        constructor
        · rw [hout, hlines, hlen]
        · intro y
          rw [← hs]
          exact mem_sortNames y (globDirNames es)

/-- Witness for C8: concrete successful runs of both variants. -/
theorem C8_output_contract_witness :
    ((jsInstall ⟨[], some ["home"], none, ["proj"], ["app", "bin"]⟩
        (.dir [("app", .dir [("bin", .dir []),
                 ("skills", .dir [("alpha", .dir [("SKILL.md", .file "a")])])]),
               ("proj", .dir [])])).stdout =
      ["",
       (if jsIsGlobal ⟨[], some ["home"], none, ["proj"], ["app", "bin"]⟩ then
          "Installing Next.js Claude skills globally..."
        else "Installing Next.js Claude skills to project..."),
       "Target: " ++ showPath ["proj", ".claude", "skills"], ""] ++
      (subdirNames [("alpha", FsNode.dir [("SKILL.md", FsNode.file "a")])]).map
        (fun s => "  ✓ " ++ s) ++
      ["", "Done! " ++
         toString (subdirNames
           [("alpha", FsNode.dir [("SKILL.md", FsNode.file "a")])]).length ++
         " skills installed.",
       "", "Skills are auto-activated by Claude Code based on your prompts.",
       "No additional configuration needed.", ""]) ∧
    ((bashInstall ⟨[], some ["home"], ["proj"], ["tmp", "t1"],
        some (.dir [("skills", .dir [("alpha", .dir [("SKILL.md", .file "a")])])])⟩
        (.dir [("tmp", .dir []), ("proj", .dir [])])).stdout =
      ["", "Cloning Next.js Claude skills...",
       (if bashIsGlobal ⟨[], some ["home"], ["proj"], ["tmp", "t1"],
          some (.dir [("skills", .dir [("alpha", .dir [("SKILL.md", .file "a")])])])⟩
        then "Installing globally to " ++ showPath ["proj", ".claude", "skills"]
        else "Installing to project at " ++ showPath ["proj", ".claude", "skills"]),
       ""] ++
      (sortNames (globDirNames
        [("alpha", FsNode.dir [("SKILL.md", FsNode.file "a")])])).map
        (fun s => "  + " ++ s) ++
      ["", "Done! " ++
         toString (globDirNames
           [("alpha", FsNode.dir [("SKILL.md", FsNode.file "a")])]).length ++
         " skills installed.",
       "", "Skills are auto-activated by Claude Code based on your prompts.",
       "No additional configuration needed.", ""]) := by
  constructor
  · exact C8_output_contract.1 ⟨[], some ["home"], none, ["proj"], ["app", "bin"]⟩
      _ ["proj", ".claude", "skills"] _ rfl rfl rfl
  · exact (C8_output_contract.2 ⟨[], some ["home"], ["proj"], ["tmp", "t1"],
      some (.dir [("skills", .dir [("alpha", .dir [("SKILL.md", .file "a")])])])⟩
      (.dir [("tmp", .dir []), ("proj", .dir [])])
      ["proj", ".claude", "skills"] _ _ rfl rfl rfl
      (pathDiv_of_head_ne (by decide)) rfl).1

/-- C9: In the local variant, payload-source entries that are not
directories are ignored: they are not enumerated, nothing is copied to
their would-be destination, and a payload of only files fails the
empty-payload check with no mutation. -/
theorem C9_nondirectory_entries_ignored (e : JsEnv) (fs0 : FsNode) (tb : List String)
    (es : List (String × FsNode)) (n c : String)
    (htb : jsTargetBase e = some tb)
    (hsrc : fs0.lookup (jsSkillsSource e) = some (.dir es)) (hwf : wfList es = true)
    (hmem : (n, FsNode.file c) ∈ es) :
    n ∉ subdirNames es ∧
    (jsInstall e fs0).fs.lookup (tb ++ [n]) = fs0.lookup (tb ++ [n]) ∧
    ((∀ x ∈ es, x.2.isDirNode = false) →
      (jsInstall e fs0).exitCode ≠ 0 ∧ (jsInstall e fs0).fs = fs0) := by
  have hlk : lookupEntry es n = some (.file c) := wfList_lookupEntry_of_mem hwf hmem
  have hnotdir : n ∉ subdirNames es := by
    intro hn
    obtain ⟨ds, hds⟩ := mem_subdirNames_lookupEntry hwf hn
    rw [hlk] at hds
    exact FsNode.noConfusion (Option.some.inj hds)
  refine ⟨hnotdir, ?_, ?_⟩
  · by_cases hne : subdirNames es = []
    · have : (jsInstall e fs0).fs = fs0 := by
        simp [jsInstall, htb, hsrc, hne]
      rw [this]
    · cases hmk : fs0.mkdirp tb with
      | none =>
          have : (jsInstall e fs0).fs = fs0 := by
            simp [jsInstall, htb, hsrc, hne, hmk]
          rw [this]
      | some fs1 =>
          have h1n : fs1.lookup (tb ++ [n]) = fs0.lookup (tb ++ [n]) := by
            cases h0 : fs0.lookup tb with
            | none =>
                rw [FsNode.lookup_append, FsNode.lookup_append,
                  FsNode.lookup_mkdirp_fresh h0 hmk, h0]
                simp [FsNode.lookup, lookupEntry]
            | some node =>
                cases node with
                | file cc =>
                    rw [FsNode.mkdirp_of_file h0] at hmk
                    exact absurd hmk (by simp)
                | dir ds0 =>
                    rw [FsNode.mkdirp_of_dir h0] at hmk
                    injection hmk with hmk
                    subst hmk
                    rfl
          have hfs : (jsInstall e fs0).fs =
              loopFs (jsCopyLoop (jsSkillsSource e) tb fs1 (subdirNames es)) := by
            cases hloop : jsCopyLoop (jsSkillsSource e) tb fs1 (subdirNames es) with
            | error p =>
                obtain ⟨f, l⟩ := p
                simp [jsInstall, htb, hsrc, hne, hmk, hloop, loopFs]
            | ok p =>
                obtain ⟨f, l⟩ := p
                simp [jsInstall, htb, hsrc, hne, hmk, hloop, loopFs]
          rw [hfs, jsCopyLoop_lookup_preserved _ _ _ _ _ ?_, h1n]
          intro s hs
          refine pathDiv_sibling tb ?_
          intro hsn
          rw [hsn] at hs
          exact hnotdir hs
  · intro hall
    have hne : subdirNames es = [] := subdirNames_eq_nil hall
    constructor
    · simp [jsInstall, htb, hsrc, hne]
    · simp [jsInstall, htb, hsrc, hne]

/-- Witness for C9 at a concrete payload holding one file and one
directory. -/
theorem C9_nondirectory_entries_ignored_witness :
    "README.md" ∉ subdirNames
      [("README.md", FsNode.file "r"),
       ("alpha", FsNode.dir [("SKILL.md", FsNode.file "a")])] ∧
    (jsInstall ⟨[], some ["home"], none, ["proj"], ["app", "bin"]⟩
      (.dir [("app", .dir [("bin", .dir []),
               ("skills", .dir [("README.md", .file "r"),
                 ("alpha", .dir [("SKILL.md", .file "a")])])]),
             ("proj", .dir [])])).fs.lookup
        (["proj", ".claude", "skills"] ++ ["README.md"]) =
      (FsNode.dir [("app", .dir [("bin", .dir []),
               ("skills", .dir [("README.md", .file "r"),
                 ("alpha", .dir [("SKILL.md", .file "a")])])]),
             ("proj", .dir [])]).lookup
        (["proj", ".claude", "skills"] ++ ["README.md"]) := by
  have h := C9_nondirectory_entries_ignored
    ⟨[], some ["home"], none, ["proj"], ["app", "bin"]⟩
    (.dir [("app", .dir [("bin", .dir []),
             ("skills", .dir [("README.md", .file "r"),
               ("alpha", .dir [("SKILL.md", .file "a")])])]),
           ("proj", .dir [])])
    ["proj", ".claude", "skills"]
    [("README.md", FsNode.file "r"),
     ("alpha", FsNode.dir [("SKILL.md", FsNode.file "a")])]
    "README.md" "r" rfl rfl rfl
    (List.Mem.head _)
  exact ⟨h.1, h.2.1⟩

/-- C5 counterexample: with an existing-but-empty payload, the remote
variant exits non-zero, but it has already run `mkdir -p "$TARGET"`:
the destination root, absent before the run, exists afterwards — so
"the destination root itself is not modified" is false as stated. -/
theorem C5_counterexample :
    (FsNode.dir [("tmp", .dir []), ("proj", .dir [])]).lookup
      ["proj", ".claude", "skills"] = none ∧
    (bashInstall ⟨[], some ["home"], ["proj"], ["tmp", "t1"],
        some (.dir [("skills", .dir [])])⟩
      (.dir [("tmp", .dir []), ("proj", .dir [])])).exitCode ≠ 0 ∧
    (bashInstall ⟨[], some ["home"], ["proj"], ["tmp", "t1"],
        some (.dir [("skills", .dir [])])⟩
      (.dir [("tmp", .dir []), ("proj", .dir [])])).fs.lookup
      ["proj", ".claude", "skills"] = some (.dir []) := by
  refine ⟨rfl, ?_, rfl⟩
  decide

/-- C5 amended: on an existing-but-empty payload both variants exit
non-zero and create no skill subdirectory at the destination (every
path strictly below the destination root resolves as before); the
local variant leaves the filesystem fully untouched, while the remote
variant may create (only) the empty destination root. -/
theorem C5_empty_payload :
    (∀ (e : JsEnv) (fs0 : FsNode) (es : List (String × FsNode)),
      fs0.lookup (jsSkillsSource e) = some (.dir es) → subdirNames es = [] →
      (jsInstall e fs0).exitCode ≠ 0 ∧ (jsInstall e fs0).fs = fs0) ∧
    (∀ (b : BashEnv) (fs0 : FsNode) (tb : List String) (r : FsNode)
        (es : List (String × FsNode)),
      bashTarget b = some tb → b.cloneResult = some r →
      r.lookup ["skills"] = some (.dir es) → subdirNames es = [] →
      PathDiv b.tmpPath tb →
      (bashInstall b fs0).exitCode ≠ 0 ∧
      (∀ name, (bashInstall b fs0).fs.lookup (tb ++ [name]) =
        fs0.lookup (tb ++ [name]))) := by
  constructor
  · intro e fs0 es hsrc hempty
    cases htb : jsTargetBase e with
    | none => exact ⟨by simp [jsInstall, htb], by simp [jsInstall, htb]⟩
    | some tb =>
        exact ⟨by simp [jsInstall, htb, hsrc, hempty],
          by simp [jsInstall, htb, hsrc, hempty]⟩
  · intro b fs0 tb r es htb hcl hsk hempty hdiv
    cases hmkT : fs0.mkdirp b.tmpPath with
    | none =>
        exact ⟨by simp [bashInstall, htb, hmkT],
          fun name => by simp [bashInstall, htb, hmkT]⟩
    | some fsT =>
        obtain ⟨tds, htdir⟩ := FsNode.lookup_mkdirp_self hmkT
        obtain ⟨fs1, hset⟩ := FsNode.setAt_child_exists htdir "repo" r
        have hT2fs0 : ∀ name : String,
            fs1.lookup (tb ++ [name]) = fs0.lookup (tb ++ [name]) := by
          intro name
          rw [FsNode.lookup_setAt_of_pathDiv hset
            (pathDiv_append hdiv ["repo"] [name]),
            FsNode.lookup_mkdirp_of_pathDiv hmkT (pathDiv_append_right hdiv [name])]
        cases hmk2 : fs1.mkdirp tb with
        | none =>
            refine ⟨by simp [bashInstall, bashFinish, bashMain, htb, hmkT, hcl,
              hset, hmk2], fun name => ?_⟩
            have hfs : (bashInstall b fs0).fs = fs1.removeAt b.tmpPath := by
              simp [bashInstall, bashFinish, bashMain, htb, hmkT, hcl, hset, hmk2]
            rw [hfs, FsNode.lookup_removeAt_of_pathDiv _
              (pathDiv_append_right hdiv [name]), hT2fs0 name]
        | some fs2 =>
            have hskills : fs2.lookup (b.tmpPath ++ ["repo", "skills"]) =
                some (.dir es) := by
              have hrepo : fs1.lookup (b.tmpPath ++ ["repo"]) = some r :=
                FsNode.lookup_setAt_self hset
              have hpath : b.tmpPath ++ ["repo", "skills"] =
                  (b.tmpPath ++ ["repo"]) ++ ["skills"] := by simp
              have h1 : fs1.lookup (b.tmpPath ++ ["repo", "skills"]) =
                  some (.dir es) := by
                rw [hpath, FsNode.lookup_append, hrepo]
                simpa using hsk
              rw [FsNode.lookup_mkdirp_of_pathDiv hmk2
                (pathDiv_append_right (pathDiv_symm hdiv) ["repo", "skills"]), h1]
            have hemptyG : globDirNames es = [] := globDirNames_eq_nil hempty
            have hglob : bashGlob fs2 (b.tmpPath ++ ["repo", "skills"]) = ["*"] := by
              simp [bashGlob, hskills, hemptyG, sortNames]
            have hcp : bashCpR fs2 (b.tmpPath ++ ["repo", "skills", "*"])
                (tb ++ ["*"]) "*" = none := by
              rw [bashCpR]
              have hassoc : b.tmpPath ++ ["repo", "skills", "*"] =
                  (b.tmpPath ++ ["repo", "skills"]) ++ ["*"] := by simp
              rw [hassoc, FsNode.lookup_append, hskills]
              cases hstar : lookupEntry es "*" with
              | none => simp [FsNode.lookup, hstar]
              | some v =>
                  cases v with
                  | file cc => simp [FsNode.lookup, hstar]
                  | dir ds =>
                      have := lookupEntry_dir_mem_subdirNames hstar
                      rw [hempty] at this
                      simp at this
            have hloop : bashCopyLoop (b.tmpPath ++ ["repo", "skills"]) tb fs2 ["*"] =
                .error (fs2, []) := by
              simp [bashCopyLoop, hcp]
            have hfs : (bashInstall b fs0).fs = fs2.removeAt b.tmpPath := by
              simp [bashInstall, bashFinish, bashMain, htb, hmkT, hcl, hset, hmk2,
                hglob, hloop]
            have hexit : (bashInstall b fs0).exitCode = 1 := by
              simp [bashInstall, bashFinish, bashMain, htb, hmkT, hcl, hset, hmk2,
                hglob, hloop]
            refine ⟨by simp [hexit], fun name => ?_⟩
            have h2n : fs2.lookup (tb ++ [name]) = fs1.lookup (tb ++ [name]) := by
              cases h0 : fs1.lookup tb with
              | none =>
                  rw [FsNode.lookup_append, FsNode.lookup_append,
                    FsNode.lookup_mkdirp_fresh h0 hmk2, h0]
                  simp [FsNode.lookup, lookupEntry]
              | some node =>
                  cases node with
                  | file cc =>
                      rw [FsNode.mkdirp_of_file h0] at hmk2
                      exact absurd hmk2 (by simp)
                  | dir ds0 =>
                      rw [FsNode.mkdirp_of_dir h0] at hmk2
                      injection hmk2 with hmk2
                      subst hmk2
                      rfl
            rw [hfs, FsNode.lookup_removeAt_of_pathDiv _
              (pathDiv_append_right hdiv [name]), h2n, hT2fs0 name]

/-- Witness for the amended C5 at concrete empty payloads. -/
theorem C5_empty_payload_witness :
    ((jsInstall ⟨[], some ["home"], none, ["proj"], ["app", "bin"]⟩
        (.dir [("app", .dir [("bin", .dir []), ("skills", .dir [])]),
               ("proj", .dir [])])).exitCode ≠ 0 ∧
      (jsInstall ⟨[], some ["home"], none, ["proj"], ["app", "bin"]⟩
        (.dir [("app", .dir [("bin", .dir []), ("skills", .dir [])]),
               ("proj", .dir [])])).fs =
        .dir [("app", .dir [("bin", .dir []), ("skills", .dir [])]),
              ("proj", .dir [])]) ∧
    ((bashInstall ⟨[], some ["home"], ["proj"], ["tmp", "t1"],
        some (.dir [("skills", .dir [])])⟩
        (.dir [("tmp", .dir []), ("proj", .dir [])])).exitCode ≠ 0 ∧
      (∀ name, (bashInstall ⟨[], some ["home"], ["proj"], ["tmp", "t1"],
          some (.dir [("skills", .dir [])])⟩
          (.dir [("tmp", .dir []), ("proj", .dir [])])).fs.lookup
          (["proj", ".claude", "skills"] ++ [name]) =
        (FsNode.dir [("tmp", .dir []), ("proj", .dir [])]).lookup
          (["proj", ".claude", "skills"] ++ [name]))) :=
  ⟨C5_empty_payload.1 ⟨[], some ["home"], none, ["proj"], ["app", "bin"]⟩
      _ [] rfl rfl,
   C5_empty_payload.2 ⟨[], some ["home"], ["proj"], ["tmp", "t1"],
      some (.dir [("skills", .dir [])])⟩
      (.dir [("tmp", .dir []), ("proj", .dir [])])
      ["proj", ".claude", "skills"] _ [] rfl rfl rfl rfl
      (pathDiv_of_head_ne (by decide))⟩

/-- C2 counterexample: a successful local-variant run against a
destination root that already holds a directory `intruder` (not a
payload skill) leaves `intruder` in place: the set of directory names
at the destination root is strictly larger than the payload's. -/
theorem C2_counterexample :
    (jsInstall ⟨[], some ["home"], none, ["proj"], ["app", "bin"]⟩
      (.dir [("app", .dir [("bin", .dir []),
               ("skills", .dir [("alpha", .dir [("SKILL.md", .file "a")])])]),
             ("proj", .dir [(".claude", .dir [("skills",
               .dir [("intruder", .dir [])])])])])).exitCode = 0 ∧
    jsSkillDirs ⟨[], some ["home"], none, ["proj"], ["app", "bin"]⟩
      (.dir [("app", .dir [("bin", .dir []),
               ("skills", .dir [("alpha", .dir [("SKILL.md", .file "a")])])]),
             ("proj", .dir [(".claude", .dir [("skills",
               .dir [("intruder", .dir [])])])])]) = some ["alpha"] ∧
    "intruder" ∈ dirNamesAt
      (jsInstall ⟨[], some ["home"], none, ["proj"], ["app", "bin"]⟩
        (.dir [("app", .dir [("bin", .dir []),
                 ("skills", .dir [("alpha", .dir [("SKILL.md", .file "a")])])]),
               ("proj", .dir [(".claude", .dir [("skills",
                 .dir [("intruder", .dir [])])])])])).fs
      ["proj", ".claude", "skills"] ∧
    "intruder" ∉ ["alpha"] := by
  refine ⟨rfl, rfl, ?_, ?_⟩ <;> decide

/-- C2 amended: after a successful run of either variant, every skill
directory name of the payload source has a same-named directory at the
destination root; when the destination root did not exist before the
run, the destination root's entries are exactly one directory per
payload skill name (in enumeration order locally, glob-sorted
remotely); the remote variant reaches only the glob-visible skill
directories, i.e. those whose names do not begin with a dot.
Directory names already present beforehand survive. -/
theorem C2_destination_names :
    (∀ (e : JsEnv) (fs0 : FsNode) (tb : List String) (es : List (String × FsNode)),
      jsTargetBase e = some tb → PathDiv (jsSkillsSource e) tb →
      fs0.lookup (jsSkillsSource e) = some (.dir es) → wfList es = true →
      (jsInstall e fs0).exitCode = 0 →
      (∀ s ∈ subdirNames es,
        ∃ ds, (jsInstall e fs0).fs.lookup (tb ++ [s]) = some (.dir ds)) ∧
      (fs0.lookup tb = none →
        ∃ desF, (jsInstall e fs0).fs.lookup tb = some (.dir desF) ∧
          desF.map Prod.fst = subdirNames es ∧
          ∀ x ∈ desF, x.2.isDirNode = true)) ∧
    (∀ (b : BashEnv) (fs0 : FsNode) (tb : List String) (r : FsNode)
        (es : List (String × FsNode)),
      bashTarget b = some tb → b.cloneResult = some r →
      r.lookup ["skills"] = some (.dir es) → wfList es = true →
      PathDiv b.tmpPath tb →
      (bashInstall b fs0).exitCode = 0 →
      (∀ s ∈ globDirNames es,
        ∃ ds, (bashInstall b fs0).fs.lookup (tb ++ [s]) = some (.dir ds)) ∧
      (fs0.lookup tb = none →
        ∃ desF, (bashInstall b fs0).fs.lookup tb = some (.dir desF) ∧
          desF.map Prod.fst = sortNames (globDirNames es) ∧
          ∀ x ∈ desF, x.2.isDirNode = true)) := by
  constructor
  · intro e fs0 tb es htb hdiv hsrc hwf hz
    obtain ⟨tb2, es2, fs1, fs2, lines, htb2, hsrc2, hne, hmk, hloop, hfs, _⟩ :=
      jsInstall_inversion e fs0 hz
    rw [htb] at htb2
    injection htb2 with htb2
    subst htb2
    rw [hsrc] at hsrc2
    injection hsrc2 with hsrc2
    injection hsrc2 with hsrc2
    subst hsrc2
    have hsrcdirs : ∀ s ∈ subdirNames es, ∃ ds,
        fs1.lookup (jsSkillsSource e ++ [s]) = some (.dir ds) := by
      intro s hs
      obtain ⟨ds, hds⟩ := mem_subdirNames_lookupEntry hwf hs
      refine ⟨ds, ?_⟩
      rw [FsNode.lookup_mkdirp_of_pathDiv hmk
        (pathDiv_append_right (pathDiv_symm hdiv) [s]),
        FsNode.lookup_append, hsrc]
      simp [FsNode.lookup, hds]
    constructor
    · intro s hs
      obtain ⟨ds, hds⟩ := jsCopyLoop_ok_present (jsSkillsSource e) tb hdiv
        (subdirNames es) fs1 fs2 lines (subdirNames_nodup hwf) hsrcdirs hloop s hs
      exact ⟨ds, by rw [hfs]; exact hds⟩
    · intro h0
      have h1tb : fs1.lookup tb = some (.dir []) := FsNode.lookup_mkdirp_fresh h0 hmk
      obtain ⟨desF, hdF, hnames, hmem⟩ := jsCopyLoop_ok_names (jsSkillsSource e) tb
        hdiv (subdirNames es) fs1 fs2 lines [] (subdirNames_nodup hwf) hsrcdirs
        hloop h1tb (fun s _ => rfl)
      refine ⟨desF, by rw [hfs]; exact hdF, by simpa using hnames, ?_⟩
      intro x hx
      rcases hmem x hx with hxd | hxdir
      · simp at hxd
      · exact hxdir
  · intro b fs0 tb r es htb hcl hsk hwf hdiv hz
    obtain ⟨tb2, fsT, r2, fs1, fs2, fs3, lines, htb2, hmkT, hcl2, hset, hmk2, hloop,
      hfs, _⟩ := bashInstall_inversion b fs0 hz
    rw [htb] at htb2
    injection htb2 with htb2
    subst htb2
    rw [hcl] at hcl2
    injection hcl2 with hcl2
    subst hcl2
    have hskills : fs2.lookup (b.tmpPath ++ ["repo", "skills"]) = some (.dir es) := by
      have hrepo : fs1.lookup (b.tmpPath ++ ["repo"]) = some r :=
        FsNode.lookup_setAt_self hset
      have hpath : b.tmpPath ++ ["repo", "skills"] =
          (b.tmpPath ++ ["repo"]) ++ ["skills"] := by simp
      have h1 : fs1.lookup (b.tmpPath ++ ["repo", "skills"]) = some (.dir es) := by
        rw [hpath, FsNode.lookup_append, hrepo]
        simpa using hsk
      rw [FsNode.lookup_mkdirp_of_pathDiv hmk2
        (pathDiv_append_right (pathDiv_symm hdiv) ["repo", "skills"]), h1]
    have hglob : bashGlob fs2 (b.tmpPath ++ ["repo", "skills"]) =
        match sortNames (globDirNames es) with
        | [] => ["*"]
        | x :: xs => x :: xs := by
      simp [bashGlob, hskills]
    cases hs : sortNames (globDirNames es) with
    | nil =>
        exfalso
        have hglob2 : bashGlob fs2 (b.tmpPath ++ ["repo", "skills"]) = ["*"] := by
          rw [hglob, hs]
        rw [hglob2] at hloop
        have hsubnil : globDirNames es = [] := by
          have := length_sortNames (globDirNames es)
          rw [hs] at this
          exact List.length_eq_zero.mp this.symm
        simp only [bashCopyLoop] at hloop
        cases hcp : bashCpR fs2 ((b.tmpPath ++ ["repo", "skills"]) ++ ["*"])
            (tb ++ ["*"]) "*" with
        | none => rw [hcp] at hloop; simp at hloop
        | some fsW =>
            rw [bashCpR] at hcp
            rw [FsNode.lookup_append, hskills] at hcp
            cases hstar2 : lookupEntry es "*" with
            | none => simp [FsNode.lookup, hstar2] at hcp
            | some v =>
                cases v with
                | file c => simp [FsNode.lookup, hstar2] at hcp
                | dir ds =>
                    have := lookupEntry_dir_mem_globDirNames hstar2 (by decide)
                    rw [hsubnil] at this
                    simp at this
    | cons x xs =>
        have hglob2 : bashGlob fs2 (b.tmpPath ++ ["repo", "skills"]) = x :: xs := by
          rw [hglob, hs]
        rw [hglob2] at hloop
        have hnd : (x :: xs).Nodup := by
          rw [← hs]
          exact nodup_sortNames _ (globDirNames_nodup hwf)
        have hfinal : ∀ q, (bashInstall b fs0).fs.lookup (tb ++ q) =
            fs3.lookup (tb ++ q) := by
          intro q
          rw [hfs, FsNode.lookup_removeAt_of_pathDiv _ (pathDiv_append_right hdiv q)]
        constructor
        · intro s hsmem
          have hsmem2 : s ∈ x :: xs := by
            rw [← hs]
            exact (mem_sortNames s _).mpr hsmem
          obtain ⟨ds, hds⟩ := bashCopyLoop_ok_present (b.tmpPath ++ ["repo", "skills"])
            tb (x :: xs) fs2 fs3 lines hnd hloop s hsmem2
          exact ⟨ds, by rw [hfinal [s]]; exact hds⟩
        · intro h0
          have h1tb : fs1.lookup tb = none := by
            rw [FsNode.lookup_setAt_of_pathDiv hset (pathDiv_append_left hdiv ["repo"]),
              FsNode.lookup_mkdirp_of_pathDiv hmkT hdiv]
            exact h0
          have h2tb : fs2.lookup tb = some (.dir []) :=
            FsNode.lookup_mkdirp_fresh h1tb hmk2
          have hsrcdirs : ∀ s ∈ x :: xs, ∃ ds,
              fs2.lookup ((b.tmpPath ++ ["repo", "skills"]) ++ [s]) =
                some (.dir ds) := by
            intro s hsmem
            have : s ∈ subdirNames es := by
              refine mem_globDirNames_subset ?_
              rw [← mem_sortNames s (globDirNames es), hs]
              exact hsmem
            obtain ⟨ds, hds⟩ := mem_subdirNames_lookupEntry hwf this
            refine ⟨ds, ?_⟩
            rw [FsNode.lookup_append, hskills]
            simp [FsNode.lookup, hds]
          have hdivst : PathDiv (b.tmpPath ++ ["repo", "skills"]) tb :=
            pathDiv_append_left hdiv ["repo", "skills"]
          obtain ⟨desF, hdF, hnames, hmem⟩ := bashCopyLoop_ok_names
            (b.tmpPath ++ ["repo", "skills"]) tb hdivst (x :: xs) fs2 fs3 lines []
            hnd hsrcdirs hloop h2tb (fun s _ => rfl)
          have hlookup : (bashInstall b fs0).fs.lookup tb = some (.dir desF) := by
            have := hfinal []
            rw [List.append_nil] at this
            rw [this]
            exact hdF
          refine ⟨desF, hlookup, by simpa [hs] using hnames, ?_⟩
          intro y hy
          rcases hmem y hy with hyd | hydir
          · simp at hyd
          · exact hydir

/-- Witness for the amended C2 on concrete fresh-destination runs. -/
theorem C2_destination_names_witness :
    (∀ s ∈ subdirNames [("alpha", FsNode.dir [("SKILL.md", FsNode.file "a")])],
      ∃ ds, (jsInstall ⟨[], some ["home"], none, ["proj"], ["app", "bin"]⟩
        (.dir [("app", .dir [("bin", .dir []),
                 ("skills", .dir [("alpha", .dir [("SKILL.md", .file "a")])])]),
               ("proj", .dir [])])).fs.lookup
        (["proj", ".claude", "skills"] ++ [s]) = some (.dir ds)) ∧
    ((FsNode.dir [("app", .dir [("bin", .dir []),
        ("skills", .dir [("alpha", .dir [("SKILL.md", .file "a")])])]),
       ("proj", .dir [])]).lookup ["proj", ".claude", "skills"] = none →
      ∃ desF, (jsInstall ⟨[], some ["home"], none, ["proj"], ["app", "bin"]⟩
        (.dir [("app", .dir [("bin", .dir []),
                 ("skills", .dir [("alpha", .dir [("SKILL.md", .file "a")])])]),
               ("proj", .dir [])])).fs.lookup ["proj", ".claude", "skills"] =
          some (.dir desF) ∧
        desF.map Prod.fst =
          subdirNames [("alpha", FsNode.dir [("SKILL.md", FsNode.file "a")])] ∧
        ∀ x ∈ desF, x.2.isDirNode = true) :=
  C2_destination_names.1 ⟨[], some ["home"], none, ["proj"], ["app", "bin"]⟩
    (.dir [("app", .dir [("bin", .dir []),
             ("skills", .dir [("alpha", .dir [("SKILL.md", .file "a")])])]),
           ("proj", .dir [])])
    ["proj", ".claude", "skills"]
    [("alpha", FsNode.dir [("SKILL.md", FsNode.file "a")])]
    rfl (pathDiv_of_head_ne (by decide)) rfl rfl rfl

/-- C3 counterexample: a successful local-variant re-install over a
pre-existing skill directory keeps a destination file that does not
exist in the payload source: the copy merges, it does not replace. -/
theorem C3_counterexample :
    (jsInstall ⟨[], some ["home"], none, ["proj"], ["app", "bin"]⟩
      (.dir [("app", .dir [("bin", .dir []),
               ("skills", .dir [("alpha", .dir [("SKILL.md", .file "a")])])]),
             ("proj", .dir [(".claude", .dir [("skills", .dir [("alpha",
               .dir [("stale.txt", .file "old")])])])])])).exitCode = 0 ∧
    (FsNode.dir [("app", .dir [("bin", .dir []),
        ("skills", .dir [("alpha", .dir [("SKILL.md", .file "a")])])]),
       ("proj", .dir [(".claude", .dir [("skills", .dir [("alpha",
         .dir [("stale.txt", .file "old")])])])])]).lookup
      ["app", "skills", "alpha", "stale.txt"] = none ∧
    (jsInstall ⟨[], some ["home"], none, ["proj"], ["app", "bin"]⟩
      (.dir [("app", .dir [("bin", .dir []),
               ("skills", .dir [("alpha", .dir [("SKILL.md", .file "a")])])]),
             ("proj", .dir [(".claude", .dir [("skills", .dir [("alpha",
               .dir [("stale.txt", .file "old")])])])])])).fs.lookup
      ["proj", ".claude", "skills", "alpha", "stale.txt"] =
      some (.file "old") :=
  ⟨rfl, rfl, rfl⟩

/-- C3 amended: a successful local-variant re-install merges each skill
into its destination directory: every file of the payload skill lands
at its relative path with the payload's content, while destination
files at paths the payload does not reach survive unchanged (replace
semantics do not hold; the remote variant instead nests a fresh copy
inside an existing same-named directory, see the re-install behaviour
of `bashCpR`). -/
theorem C3_reinstall_merges (e : JsEnv) (fs0 : FsNode) (tb : List String)
    (es ds : List (String × FsNode)) (skill : String)
    (htb : jsTargetBase e = some tb) (hdiv : PathDiv (jsSkillsSource e) tb)
    (hsrc : fs0.lookup (jsSkillsSource e) = some (.dir es)) (hwf : wfList es = true)
    (hlk : lookupEntry es skill = some (.dir ds))
    (hz : (jsInstall e fs0).exitCode = 0) :
    (∀ rest c, (FsNode.dir ds).lookup rest = some (.file c) →
      (jsInstall e fs0).fs.lookup ((tb ++ [skill]) ++ rest) = some (.file c)) ∧
    (∀ rest c, fs0.lookup ((tb ++ [skill]) ++ rest) = some (.file c) →
      (FsNode.dir ds).lookup rest = none →
      (jsInstall e fs0).fs.lookup ((tb ++ [skill]) ++ rest) = some (.file c)) := by
  have hmem : skill ∈ subdirNames es := lookupEntry_dir_mem_subdirNames hlk
  obtain ⟨tb2, es2, fs1, fs2, lines, htb2, hsrc2, hne, hmk, hloop, hfs, _⟩ :=
    jsInstall_inversion e fs0 hz
  rw [htb] at htb2
  injection htb2 with htb2
  subst htb2
  rw [hsrc] at hsrc2
  injection hsrc2 with hsrc2
  injection hsrc2 with hsrc2
  subst hsrc2
  obtain ⟨ns, m, hns, hcm, hdst⟩ := jsCopyLoop_ok_skill (jsSkillsSource e) tb hdiv
    (subdirNames es) fs1 fs2 lines skill (subdirNames_nodup hwf) hmem hloop
  have hns2 : ns = FsNode.dir ds := by
    rw [FsNode.lookup_mkdirp_of_pathDiv hmk
      (pathDiv_append_right (pathDiv_symm hdiv) [skill]),
      FsNode.lookup_append, hsrc] at hns
    simp only [Option.some_bind] at hns
    have : (FsNode.dir es).lookup [skill] = some (.dir ds) := by
      simp [FsNode.lookup, hlk]
    rw [this] at hns
    exact (Option.some.inj hns).symm
  subst hns2
  have hdswf : (FsNode.dir ds).wf = true := wfList_lookupEntry hwf hlk
  have hfinal : ∀ rest, (jsInstall e fs0).fs.lookup ((tb ++ [skill]) ++ rest) =
      m.lookup rest := by
    intro rest
    rw [hfs, FsNode.lookup_append, hdst, Option.some_bind]
  constructor
  · intro rest c hfile
    rw [hfinal rest]
    exact cpMerge_lookup_file_src rest (.dir ds) (fs1.lookup (tb ++ [skill])) m c
      hdswf hcm hfile
  · intro rest c hdst0 hnone
    cases h0 : fs0.lookup tb with
    | none =>
        exfalso
        rw [FsNode.lookup_append, FsNode.lookup_append, h0] at hdst0
        simp at hdst0
    | some node =>
        cases node with
        | file cc =>
            rw [FsNode.mkdirp_of_file h0] at hmk
            exact absurd hmk (by simp)
        | dir ds0 =>
            have hfs1 : fs1 = fs0 := by
              rw [FsNode.mkdirp_of_dir h0] at hmk
              exact (Option.some.inj hmk).symm
            subst hfs1
            rw [FsNode.lookup_append] at hdst0
            cases hd0 : fs1.lookup (tb ++ [skill]) with
            | none => rw [hd0] at hdst0; simp at hdst0
            | some d0 =>
                rw [hd0] at hdst0
                simp only [Option.some_bind] at hdst0
                rw [hd0] at hcm
                rw [hfinal rest]
                exact cpMerge_lookup_dest rest (.dir ds) d0 m (.file c) hdswf hcm
                  hdst0 hnone

/-- Witness for the amended C3: the payload file is written and the
stale destination-only file survives, at a concrete re-install. -/
theorem C3_reinstall_merges_witness :
    (jsInstall ⟨[], some ["home"], none, ["proj"], ["app", "bin"]⟩
      (.dir [("app", .dir [("bin", .dir []),
               ("skills", .dir [("alpha", .dir [("SKILL.md", .file "a")])])]),
             ("proj", .dir [(".claude", .dir [("skills", .dir [("alpha",
               .dir [("stale.txt", .file "old")])])])])])).fs.lookup
      ((["proj", ".claude", "skills"] ++ ["alpha"]) ++ ["SKILL.md"]) =
      some (.file "a") ∧
    (jsInstall ⟨[], some ["home"], none, ["proj"], ["app", "bin"]⟩
      (.dir [("app", .dir [("bin", .dir []),
               ("skills", .dir [("alpha", .dir [("SKILL.md", .file "a")])])]),
             ("proj", .dir [(".claude", .dir [("skills", .dir [("alpha",
               .dir [("stale.txt", .file "old")])])])])])).fs.lookup
      ((["proj", ".claude", "skills"] ++ ["alpha"]) ++ ["stale.txt"]) =
      some (.file "old") := by
  have h := C3_reinstall_merges ⟨[], some ["home"], none, ["proj"], ["app", "bin"]⟩
    (.dir [("app", .dir [("bin", .dir []),
             ("skills", .dir [("alpha", .dir [("SKILL.md", .file "a")])])]),
           ("proj", .dir [(".claude", .dir [("skills", .dir [("alpha",
             .dir [("stale.txt", .file "old")])])])])])
    ["proj", ".claude", "skills"]
    [("alpha", FsNode.dir [("SKILL.md", FsNode.file "a")])]
    [("SKILL.md", FsNode.file "a")] "alpha"
    rfl (pathDiv_of_head_ne (by decide)) rfl rfl rfl rfl
  exact ⟨h.1 ["SKILL.md"] "a" rfl, h.2 ["stale.txt"] "old" rfl rfl⟩

/-- C4 counterexample: running the remote installer twice is not the
same as running it once — the second run's `cp -r` copies each skill
INTO the existing directory, nesting `alpha/alpha`. -/
theorem C4_counterexample :
    (bashInstall ⟨[], some ["home"], ["proj"], ["tmp", "t1"],
        some (.dir [("skills", .dir [("alpha", .dir [("SKILL.md", .file "a")])])])⟩
      (.dir [("tmp", .dir []), ("proj", .dir [])])).exitCode = 0 ∧
    (bashInstall ⟨[], some ["home"], ["proj"], ["tmp", "t1"],
        some (.dir [("skills", .dir [("alpha", .dir [("SKILL.md", .file "a")])])])⟩
      (.dir [("tmp", .dir []), ("proj", .dir [])])).fs.lookup
      ["proj", ".claude", "skills", "alpha", "alpha"] = none ∧
    (bashInstall ⟨[], some ["home"], ["proj"], ["tmp", "t1"],
        some (.dir [("skills", .dir [("alpha", .dir [("SKILL.md", .file "a")])])])⟩
      (bashInstall ⟨[], some ["home"], ["proj"], ["tmp", "t1"],
        some (.dir [("skills", .dir [("alpha", .dir [("SKILL.md", .file "a")])])])⟩
      (.dir [("tmp", .dir []), ("proj", .dir [])])).fs).exitCode = 0 ∧
    (bashInstall ⟨[], some ["home"], ["proj"], ["tmp", "t1"],
        some (.dir [("skills", .dir [("alpha", .dir [("SKILL.md", .file "a")])])])⟩
      (bashInstall ⟨[], some ["home"], ["proj"], ["tmp", "t1"],
        some (.dir [("skills", .dir [("alpha", .dir [("SKILL.md", .file "a")])])])⟩
      (.dir [("tmp", .dir []), ("proj", .dir [])])).fs).fs.lookup
      ["proj", ".claude", "skills", "alpha", "alpha"] =
      some (.dir [("SKILL.md", .file "a")]) :=
  ⟨rfl, rfl, rfl, rfl⟩

/-- C4 amended: the local-payload installer is idempotent — on a
well-formed filesystem whose payload source does not overlap the
destination root, a second run reproduces the exact final filesystem of
the first (the remote variant is excluded: it nests, see the
counterexample). -/
theorem C4_local_idempotent (e : JsEnv) (fs0 : FsNode) (tb : List String)
    (htb : jsTargetBase e = some tb) (hdiv : PathDiv (jsSkillsSource e) tb)
    (hwf : fs0.wf = true) (hz : (jsInstall e fs0).exitCode = 0) :
    (jsInstall e (jsInstall e fs0).fs).fs = (jsInstall e fs0).fs := by
  obtain ⟨tb2, es, fs1, fs2, lines, htb2, hsrc, hne, hmk, hloop, hfs, _⟩ :=
    jsInstall_inversion e fs0 hz
  rw [htb] at htb2
  injection htb2 with htb2
  subst htb2
  have hwfes : wfList es = true := by
    simpa [FsNode.wf] using FsNode.wf_lookup hwf hsrc
  -- the source directory is unchanged by the first run
  have hsrc2 : fs2.lookup (jsSkillsSource e) = some (.dir es) := by
    have hp := jsCopyLoop_lookup_preserved (jsSkillsSource e) tb (subdirNames es) fs1
      (jsSkillsSource e) (fun s _ => pathDiv_append_left (pathDiv_symm hdiv) [s])
    rw [hloop] at hp
    simp only [loopFs] at hp
    rw [hp, FsNode.lookup_mkdirp_of_pathDiv hmk (pathDiv_symm hdiv), hsrc]
  -- the destination root is still a directory after the first run
  obtain ⟨ds1, hds1⟩ := FsNode.lookup_mkdirp_self hmk
  obtain ⟨ds2, hds2⟩ := jsCopyLoop_ok_tb_dir (jsSkillsSource e) tb (subdirNames es)
    fs1 fs2 lines ds1 hloop hds1
  have hmk2 : fs2.mkdirp tb = some fs2 := FsNode.mkdirp_of_dir hds2
  -- every skill's source subtree exists, well-formed, below the source root
  have hsrcs : ∀ s ∈ subdirNames es, ∃ ns,
      fs1.lookup (jsSkillsSource e ++ [s]) = some ns ∧ ns.wf = true := by
    intro s hs
    obtain ⟨ds, hds⟩ := mem_subdirNames_lookupEntry hwfes hs
    refine ⟨.dir ds, ?_, wfList_lookupEntry hwfes hds⟩
    rw [FsNode.lookup_mkdirp_of_pathDiv hmk
      (pathDiv_append_right (pathDiv_symm hdiv) [s]),
      FsNode.lookup_append, hsrc]
    simp [FsNode.lookup, hds]
  have hloop2 : jsCopyLoop (jsSkillsSource e) tb fs2 (subdirNames es) =
      .ok (fs2, lines) :=
    jsCopyLoop_idem (jsSkillsSource e) tb hdiv (subdirNames es) fs1 fs2 lines
      (subdirNames_nodup hwfes) hsrcs hloop
  have hrun2 : (jsInstall e fs2).fs = fs2 := by
    simp [jsInstall, htb, hsrc2, hne, hmk2, hloop2]
  rw [hfs]
  exact hrun2

/-- Witness for the amended C4 on a concrete double run. -/
theorem C4_local_idempotent_witness :
    (jsInstall ⟨[], some ["home"], none, ["proj"], ["app", "bin"]⟩
      (jsInstall ⟨[], some ["home"], none, ["proj"], ["app", "bin"]⟩
        (.dir [("app", .dir [("bin", .dir []),
                 ("skills", .dir [("alpha", .dir [("SKILL.md", .file "a")])])]),
               ("proj", .dir [])])).fs).fs =
    (jsInstall ⟨[], some ["home"], none, ["proj"], ["app", "bin"]⟩
      (.dir [("app", .dir [("bin", .dir []),
               ("skills", .dir [("alpha", .dir [("SKILL.md", .file "a")])])]),
             ("proj", .dir [])])).fs :=
  C4_local_idempotent ⟨[], some ["home"], none, ["proj"], ["app", "bin"]⟩
    (.dir [("app", .dir [("bin", .dir []),
             ("skills", .dir [("alpha", .dir [("SKILL.md", .file "a")])])]),
           ("proj", .dir [])])
    ["proj", ".claude", "skills"]
    rfl (pathDiv_of_head_ne (by decide)) rfl rfl

end Installer
